import Mathlib

/-!
Formal model of the article classification and deduplication pipeline of
`gamepass_notifier.py` (class `GamePassNotifier`).

Modelling conventions:
* Python strings are `List Char` (`Str` below); Python string literals are
  written `chars "..."`.
* `urllib.parse.urlparse` / `urlunparse` are modelled after CPython 3.11
  `Lib/urllib/parse.py` (`urlsplit`, `urlunsplit`, `_splitparams`,
  `_splitnetloc`, `_checknetloc`).  The `unicodedata`-based NFKC netloc
  check for non-ASCII netlocs is an external library call and is taken as
  a parameter `nfkcOk`; on all-ASCII netlocs the check always passes, as
  in the CPython source.
* `re.search(pattern, text, re.IGNORECASE)` is an external library call
  and is taken as a parameter `reSearch : Str → Str → Bool`.
* `datetime.now().timestamp()` yields a rational number of epoch seconds;
  the roundtrip `datetime.fromtimestamp(t).timestamp()` in
  `load_seen_articles` is modelled as the identity on timestamps.
* JSON values are the inductive `Json`; a seen-articles file is
  `Option (Option Json)`: `none` = file missing, `some none` = file
  present but unparsable, `some (some j)` = parsed value `j`.
-/

namespace GamePass

/-- Python `str` is modelled as a list of characters. -/
abbrev Str := List Char

/-- Convert a Lean string literal into the `List Char` model of Python strings. -/
def chars (s : String) : Str := s.toList

/-! Basic facts about `Char` used to reason about `str.lower()`. -/

theorem char_eq_iff_toNat {c d : Char} : c = d ↔ c.toNat = d.toNat :=
  ⟨fun h => h ▸ rfl, fun h => by
    rw [← Char.ofNat_toNat c, h, Char.ofNat_toNat]⟩

theorem toNat_ofNat_valid {n : Nat} (h : n < 55296) : (Char.ofNat n).toNat = n := by
  rw [Char.ofNat, dif_pos (Or.inl h)]
  rfl

/-- Characterization of `Char.toLower` at the level of code points. -/
theorem toLower_toNat (c : Char) :
    (Char.toLower c).toNat =
      if 65 ≤ c.toNat ∧ c.toNat ≤ 90 then c.toNat + 32 else c.toNat := by
  unfold Char.toLower
  split
  next h =>
    rw [if_pos (by omega), toNat_ofNat_valid (by omega)]
  next h =>
    rw [if_neg (by omega)]

theorem toLower_toLower (c : Char) : c.toLower.toLower = c.toLower := by
  rw [char_eq_iff_toNat, toLower_toNat, toLower_toNat]
  by_cases h : 65 ≤ c.toNat ∧ c.toNat ≤ 90
  · simp only [if_pos h]
    rw [if_neg (by omega)]
  · simp only [if_neg h]

/-! Helper lemmas about `takeWhile` / `dropWhile` on appended lists. -/

theorem takeWhile_append_all {p : Char → Bool} {l₁ l₂ : Str}
    (h : ∀ c ∈ l₁, p c = true) :
    (l₁ ++ l₂).takeWhile p = l₁ ++ l₂.takeWhile p := by
  induction l₁ with
  | nil => simp
  | cons c t ih =>
    rw [List.cons_append, List.takeWhile_cons, h c (by simp),
      ih (fun x hx => h x (by simp [hx]))]
    simp

theorem dropWhile_append_all {p : Char → Bool} {l₁ l₂ : Str}
    (h : ∀ c ∈ l₁, p c = true) :
    (l₁ ++ l₂).dropWhile p = l₂.dropWhile p := by
  induction l₁ with
  | nil => simp
  | cons c t ih =>
    rw [List.cons_append, List.dropWhile_cons, h c (by simp)]
    simpa using ih (fun x hx => h x (by simp [hx]))

theorem takeWhile_append_stop {p : Char → Bool} {l₁ : Str} (l₂ : Str)
    (h : ¬ (∀ c ∈ l₁, p c = true)) :
    (l₁ ++ l₂).takeWhile p = l₁.takeWhile p := by
  induction l₁ with
  | nil => exact absurd (by simp) h
  | cons c t ih =>
    by_cases hc : p c = true
    · have ht : ¬ (∀ x ∈ t, p x = true) := by
        intro hall
        exact h (fun x hx => by
          rcases List.mem_cons.mp hx with rfl | hx
          · exact hc
          · exact hall x hx)
      rw [List.cons_append, List.takeWhile_cons, List.takeWhile_cons, hc, ih ht]
    · rw [List.cons_append, List.takeWhile_cons, List.takeWhile_cons]
      simp [hc]

theorem dropWhile_append_stop {p : Char → Bool} {l₁ : Str} (l₂ : Str)
    (h : ¬ (∀ c ∈ l₁, p c = true)) :
    (l₁ ++ l₂).dropWhile p = l₁.dropWhile p ++ l₂ := by
  induction l₁ with
  | nil => exact absurd (by simp) h
  | cons c t ih =>
    by_cases hc : p c = true
    · have ht : ¬ (∀ x ∈ t, p x = true) := by
        intro hall
        exact h (fun x hx => by
          rcases List.mem_cons.mp hx with rfl | hx
          · exact hc
          · exact hall x hx)
      rw [List.cons_append, List.dropWhile_cons, List.dropWhile_cons, hc, ih ht]
      simp
    · rw [List.cons_append, List.dropWhile_cons, List.dropWhile_cons]
      simp [hc]

theorem mem_of_mem_takeWhile {p : Char → Bool} {l : Str} {c : Char}
    (h : c ∈ l.takeWhile p) : c ∈ l := by
  induction l with
  | nil => simp at h
  | cons a t ih =>
    rw [List.takeWhile_cons] at h
    by_cases ha : p a = true
    · rw [ha] at h
      simp only [if_pos rfl] at h
      rcases List.mem_cons.mp h with rfl | h
      · exact List.mem_cons_self _ _
      · exact List.mem_cons_of_mem _ (ih h)
    · simp [ha] at h

theorem pred_of_mem_takeWhile {p : Char → Bool} {l : Str} {c : Char}
    (h : c ∈ l.takeWhile p) : p c = true := by
  induction l with
  | nil => simp at h
  | cons a t ih =>
    rw [List.takeWhile_cons] at h
    by_cases ha : p a = true
    · rw [ha] at h
      simp only [if_pos rfl] at h
      rcases List.mem_cons.mp h with rfl | h
      · exact ha
      · exact ih h
    · simp [ha] at h

theorem mem_of_mem_dropWhile {p : Char → Bool} {l : Str} {c : Char}
    (h : c ∈ l.dropWhile p) : c ∈ l := by
  induction l with
  | nil => simp at h
  | cons a t ih =>
    rw [List.dropWhile_cons] at h
    by_cases ha : p a = true
    · rw [ha] at h
      simp only [if_pos rfl] at h
      exact List.mem_cons_of_mem _ (ih h)
    · simp only [ha] at h
      simpa using h

/-! URL parsing model, following CPython 3.11 `Lib/urllib/parse.py`.
`normalize_url` in the source calls `urlparse` and `urlunparse`. -/

/-- Bytes removed from a URL before parsing (`_UNSAFE_URL_BYTES_TO_REMOVE`). -/
def unsafeChar (c : Char) : Bool := c == '\t' || c == '\r' || c == '\n'

/-- The `for b in _UNSAFE_URL_BYTES_TO_REMOVE: url = url.replace(b, "")` loop of `urlsplit`. -/
def removeUnsafe (u : Str) : Str := u.filter (fun c => !unsafeChar c)

/-- Characters valid in scheme names (`scheme_chars` in `urllib.parse`). -/
def isSchemeChar (c : Char) : Bool := c.isAlpha || c.isDigit || c == '+' || c == '-' || c == '.'

/-- Scheme extraction step of `urlsplit`: `i = url.find(':')`, accept when
`i > 0`, `url[0]` is an ASCII letter and all of `url[:i]` are scheme chars;
the scheme is lowercased.  Returns `(scheme, rest)`. -/
def schemeSplit (u : Str) : Str × Str :=
  let pre := u.takeWhile (fun c => c != ':')
  if pre.length < u.length ∧ pre ≠ [] ∧ (u.headD ' ').isAlpha = true ∧
      pre.all isSchemeChar = true then
    (pre.map Char.toLower, u.drop (pre.length + 1))
  else ([], u)

/-- Delimiters ending the netloc (`_splitnetloc` scans for the earliest of `/?#`). -/
def isNetDelim (c : Char) : Bool := c == '/' || c == '?' || c == '#'

/-- Netloc extraction step of `urlsplit`: when the remainder starts with `//`,
the netloc is everything up to the first of `/?#`; returns `(netloc, rest)`. -/
def netlocSplit (u : Str) : Str × Str :=
  if u.take 2 = ['/', '/'] then
    ((u.drop 2).takeWhile (fun c => !isNetDelim c),
     (u.drop 2).dropWhile (fun c => !isNetDelim c))
  else ([], u)

/-- The `url.split(sep, 1)` idiom of `urlsplit` (used with `#` and `?`):
everything before the first `sep`, and everything after it (empty when
`sep` does not occur, matching the `''` defaults). -/
def splitFirst (sep : Char) (u : Str) : Str × Str :=
  (u.takeWhile (fun c => c != sep), (u.dropWhile (fun c => c != sep)).drop 1)

/-- The "Invalid IPv6 URL" guard of `urlsplit`: a `[` without `]` (or vice
versa) in the netloc raises `ValueError`. -/
def badIpv6 (n : Str) : Bool := (n.contains '[') != (n.contains ']')

/-- ASCII test used by `_checknetloc` (`netloc.isascii()`). -/
def pyIsAscii (c : Char) : Bool := c.toNat < 128

/-- Model of `_checknetloc`: an all-ASCII netloc always passes; the NFKC
normalization check for non-ASCII netlocs calls `unicodedata` and is taken
as the external parameter `nfkcOk` (`false` means `ValueError`). -/
def checknetloc (nfkcOk : Str → Bool) (n : Str) : Bool :=
  if n.all pyIsAscii = true then true else nfkcOk n

/-- Result of `urlsplit` (a `SplitResult` 5-tuple). -/
structure SplitResult where
  scheme : Str
  netloc : Str
  path : Str
  query : Str
  fragment : Str
deriving DecidableEq

/-- Model of `urllib.parse.urlsplit` (CPython 3.11); `none` models a raised
`ValueError` (invalid IPv6 netloc or failed NFKC netloc check). -/
def urlsplit (nfkcOk : Str → Bool) (u0 : Str) : Option SplitResult :=
  let u1 := removeUnsafe u0
  let sp := schemeSplit u1
  let nl := netlocSplit sp.2
  if badIpv6 nl.1 = true then none
  else
    let fr := splitFirst '#' nl.2
    let qr := splitFirst '?' fr.1
    if checknetloc nfkcOk nl.1 = true then
      some ⟨sp.1, nl.1, qr.1, qr.2, fr.2⟩
    else none

/-- Schemes for which `urlparse` splits `;params` from the last path
segment (`uses_params` in `urllib.parse`). -/
def uses_params : List Str :=
  [chars "", chars "ftp", chars "hdl", chars "prospero", chars "http",
   chars "imap", chars "https", chars "shttp", chars "rtsp", chars "rtspu",
   chars "sip", chars "sips", chars "mms", chars "sftp", chars "tel"]

/-- Schemes for which `urlunsplit` re-introduces the `//` authority marker
(`uses_netloc` in `urllib.parse`). -/
def uses_netloc : List Str :=
  [chars "", chars "ftp", chars "http", chars "gopher", chars "nntp",
   chars "telnet", chars "imap", chars "wais", chars "file", chars "mms",
   chars "https", chars "shttp", chars "snews", chars "prospero",
   chars "rtsp", chars "rtspu", chars "rsync", chars "svn",
   chars "svn+ssh", chars "sftp", chars "nfs", chars "git",
   chars "git+ssh", chars "ws", chars "wss"]

/-- The segment of a path after its last `/` (helper for `_splitparams`,
whose `;` search starts at `url.rfind('/')`). -/
def lastSeg (p : Str) : Str := (p.reverse.takeWhile (fun c => c != '/')).reverse

/-- Model of `_splitparams`: split `;params` off the last path segment
(or off the whole path when it has no `/`).  Only called when the path
contains `;`. -/
def splitparams (p : Str) : Str × Str :=
  if p.contains '/' = true then
    let seg := lastSeg p
    if seg.contains ';' = true then
      (p.take (p.length - seg.length) ++ seg.takeWhile (fun c => c != ';'),
       (seg.dropWhile (fun c => c != ';')).drop 1)
    else (p, [])
  else
    (p.takeWhile (fun c => c != ';'), (p.dropWhile (fun c => c != ';')).drop 1)

/-- Result of `urlparse` (a `ParseResult` 6-tuple). -/
structure ParseResult where
  scheme : Str
  netloc : Str
  path : Str
  params : Str
  query : Str
  fragment : Str
deriving DecidableEq

/-- Model of `urllib.parse.urlparse`: `urlsplit`, then `_splitparams` when
the scheme uses params and the path contains `;`. -/
def urlparse (nfkcOk : Str → Bool) (u : Str) : Option ParseResult :=
  (urlsplit nfkcOk u).map fun r =>
    if uses_params.contains r.scheme = true ∧ r.path.contains ';' = true then
      let pp := splitparams r.path
      ⟨r.scheme, r.netloc, pp.1, pp.2, r.query, r.fragment⟩
    else ⟨r.scheme, r.netloc, r.path, [], r.query, r.fragment⟩

/-- Model of `urllib.parse.urlunsplit` (CPython 3.11). -/
def urlunsplit (scheme netloc path query fragment : Str) : Str :=
  let url := path
  let url :=
    if netloc ≠ [] ∨ (scheme ≠ [] ∧ uses_netloc.contains scheme = true ∧
        url.take 2 ≠ ['/', '/']) then
      let url := if url ≠ [] ∧ url.headD ' ' ≠ '/' then '/' :: url else url
      ['/', '/'] ++ netloc ++ url
    else url
  let url := if scheme ≠ [] then scheme ++ ':' :: url else url
  let url := if query ≠ [] then url ++ '?' :: query else url
  if fragment ≠ [] then url ++ '#' :: fragment else url

/-- Model of `urllib.parse.urlunparse`: re-attach `;params` to the path,
then `urlunsplit`. -/
def urlunparse (scheme netloc path params query fragment : Str) : Str :=
  urlunsplit scheme netloc (if params ≠ [] then path ++ ';' :: params else path)
    query fragment

/-- Model of `GamePassNotifier.normalize_url`: parse the link and rebuild it
from scheme, netloc and path only (params, query and fragment are passed as
`''`).  `none` models a propagated parser exception. -/
def normalize_url (nfkcOk : Str → Bool) (u : Str) : Option Str :=
  (urlparse nfkcOk u).map fun p =>
    urlunparse p.scheme p.netloc p.path [] [] []

/-! Summary truncation (`GamePassNotifier.truncate_summary`). -/

/-- Model of Python `summary.split('. ')`: split on each non-overlapping
occurrence of the two-character separator, scanning left to right. -/
def splitDotSpace : Str → List Str
  | [] => [[]]
  | [c] => [[c]]
  | c₁ :: c₂ :: rest =>
    if c₁ = '.' ∧ c₂ = ' ' then [] :: splitDotSpace rest
    else
      match splitDotSpace (c₂ :: rest) with
      | [] => [[c₁]]
      | t :: ts => (c₁ :: t) :: ts

/-- The accumulation loop of `truncate_summary`: greedily append
`sentence + '. '` while the total stays within `maxLength`, stopping at the
first sentence that does not fit (`break`). -/
def truncLoop (maxLength : Nat) : List Str → Str → Str
  | [], truncated => truncated
  | s :: rest, truncated =>
    if (truncated ++ s ++ chars ". ").length ≤ maxLength then
      truncLoop maxLength rest (truncated ++ s ++ chars ". ")
    else truncated

/-- Whitespace for `str.rstrip()` (ASCII whitespace; the strings handled
here only ever end in `'. '`). -/
def pyIsSpace (c : Char) : Bool :=
  c == ' ' || c == '\t' || c == '\n' || c == '\r' || c == '\x0b' || c == '\x0c'

/-- Model of Python `s.rstrip()`. -/
def pyRstrip (s : Str) : Str := (s.reverse.dropWhile pyIsSpace).reverse

/-- Model of `GamePassNotifier.truncate_summary` (default `max_length=300`). -/
def truncate_summary (summary : Str) (maxLength : Nat) : Str :=
  if summary.length ≤ maxLength then summary
  else
    let truncated := truncLoop maxLength (splitDotSpace summary) []
    if truncated ≠ [] then pyRstrip truncated ++ chars "..."
    else summary.take maxLength ++ chars "..."

/-! Seen-articles persistence (`load_seen_articles` / `save_seen_articles`). -/

/-- JSON values as parsed by Python's `json.load`. -/
inductive Json where
  | null
  | bool (b : Bool)
  | num (q : ℚ)
  | str (s : Str)
  | arr (xs : List Json)
  | obj (kvs : List (Str × Json))

/-- State of the `seen_articles.json` file: `none` = missing
(`os.path.exists` false), `some none` = present but unparsable
(`json.load` raises), `some (some j)` = parsed JSON value `j`. -/
abbrev FileState := Option (Option Json)

/-- Numeric value of a JSON timestamp as seen by
`isinstance(timestamp, (int, float))`: numbers qualify, and so do booleans
(`bool` is a subclass of `int` in Python, `True == 1`, `False == 0`);
everything else fails the `isinstance` test. -/
def tsNum : Json → Option ℚ
  | Json.num q => some q
  | Json.bool b => some (if b then 1 else 0)
  | _ => none

/-- Number of seconds in the 30-day expiry window
(`timedelta(days=30)`). -/
def thirtyDays : ℚ := 2592000

/-- Timestamp filter of `load_seen_articles`: keep an entry iff its value
passes the `isinstance` test and is strictly newer than the cutoff
`(now - 30 days)` (the `datetime.fromtimestamp` roundtrip is the
identity on timestamps). -/
def tsFresh (now : ℚ) (v : Json) : Bool :=
  match tsNum v with
  | some t => decide (now - thirtyDays < t)
  | none => false

/-- Model of `GamePassNotifier.load_seen_articles`.  A missing file yields
the empty set; an unparsable file raises inside the `try`, is caught, and
yields the empty set; a JSON list (legacy shape) is reset to the empty set;
a JSON value that is neither a list nor an object makes `data.items()`
raise `AttributeError`, also caught, yielding the empty set; an object
yields the keys with fresh numeric timestamps. -/
def load_seen_articles (file : FileState) (now : ℚ) : Finset Str :=
  match file with
  | none => ∅
  | some none => ∅
  | some (some (Json.arr _)) => ∅
  | some (some (Json.obj kvs)) =>
    ((kvs.filter (fun kv => tsFresh now kv.2)).map Prod.fst).toFinset
  | some (some _) => ∅

/-- Model of `GamePassNotifier.save_seen_articles`: the written file is the
mapping `{link: datetime.now().timestamp() for link in seen_articles}` —
every member is written with timestamp `now`, and the file is entirely
overwritten (the result is a function of `seen` and `now` alone). -/
def save_seen_articles (seen : Finset Str) (now : ℚ) : Finset (Str × ℚ) :=
  seen.image (fun link => (link, now))

/-! Configuration and classification. -/

/-- Keyword and pattern configuration (`self.config`). -/
structure Config where
  gamepass_keywords : List Str
  add_patterns : List Str
  remove_patterns : List Str
deriving DecidableEq

/-- Model of `GamePassNotifier.load_config`: the function unconditionally
returns this hardcoded dictionary (it reads no file). -/
def load_config : Config where
  gamepass_keywords :=
    [chars "game pass", chars "gamepass", chars "xbox game pass",
     chars "pc game pass", chars "coming to game pass",
     chars "leaving game pass", chars "available now on game pass",
     chars "joins game pass", chars "say goodbye", chars "day one",
     chars "hollow knight", chars "silksong"]
  add_patterns :=
    [chars "coming to (?:xbox )?game pass",
     chars "available (?:now )?(?:on|in) (?:xbox )?game pass",
     chars "joins? (?:xbox )?game pass",
     chars "new.*(?:xbox )?game pass",
     chars "day one (?:on|with) (?:xbox )?game pass",
     chars "added to (?:xbox )?game pass"]
  remove_patterns :=
    [chars "leaving (?:xbox )?game pass",
     chars "last chance.*(?:xbox )?game pass",
     chars "say goodbye",
     chars "final days",
     chars "removed from (?:xbox )?game pass"]

/-- Modelled from the spec: the external JSON config file (keys
`gamepass_keywords`, `add_patterns`, `remove_patterns`) is absent from the
source — `load_config` reads nothing — so the spec's loader is modelled
here for comparison: a present and readable file supplies the
configuration, otherwise the built-in defaults are used. -/
def load_config_spec : Option Config → Config
  | none => load_config
  | some c => c

/-- Python `needle in haystack` substring test. -/
def isSubstr (needle hay : Str) : Bool := decide (needle <:+: hay)

/-- Python `s.lower()` (`Char.toLower` agrees with Python on the ASCII
letters occurring in titles/keywords; both leave other characters alone). -/
def pyLower (s : Str) : Str := s.map Char.toLower

/-- The lowercased `title + " " + summary` text both classifier methods
build.  (`summary or ""` in the source equals `summary` for a string.) -/
def classifierText (title summary : Str) : Str :=
  pyLower (title ++ chars " " ++ summary)

/-- Model of `GamePassNotifier.is_gamepass_related`: some configured
keyword is a substring of the lowercased `title + " " + summary`. -/
def is_gamepass_related (cfg : Config) (title summary : Str) : Bool :=
  cfg.gamepass_keywords.any (fun kw => isSubstr kw (classifierText title summary))

/-- Model of `GamePassNotifier.extract_game_info`: test the lowercased
text independently against the addition patterns and the removal patterns;
`reSearch` is the external `re.search(·, ·, re.IGNORECASE)`. -/
def extract_game_info (reSearch : Str → Str → Bool) (cfg : Config)
    (title summary : Str) : Bool × Bool :=
  (cfg.add_patterns.any (fun p => reSearch p (classifierText title summary)),
   cfg.remove_patterns.any (fun p => reSearch p (classifierText title summary)))

/-! Per-entry processing and the batch loop of `run`. -/

/-- A feed entry as consumed by `process_article`; `summary`,
`description` and `published` may be absent (`getattr` with default). -/
structure Entry where
  title : Str
  link : Str
  summary : Option Str
  description : Option Str
  published : Option Str

/-- The effective summary
`getattr(entry,'summary','') or getattr(entry,'description','') or ''`:
first non-empty of summary and description, else empty. -/
def entrySummary (e : Entry) : Str :=
  let a := e.summary.getD []
  if a ≠ [] then a
  else
    let b := e.description.getD []
    if b ≠ [] then b else []

/-- The dictionary `process_article` returns for a new relevant article. -/
structure Article where
  title : Str
  link : Str
  published : Str
  summary : Str
  is_addition : Bool
  is_removal : Bool
deriving DecidableEq

/-- Model of `GamePassNotifier.process_article`: normalize the link (an
exception would be caught, returning `None`); skip if already seen; skip
if not Game Pass related; otherwise classify and build the article dict. -/
def process_article (nfkcOk : Str → Bool) (reSearch : Str → Str → Bool)
    (cfg : Config) (e : Entry) (seen : Finset Str) : Option Article :=
  match normalize_url nfkcOk e.link with
  | none => none
  | some article_id =>
    if article_id ∈ seen then none
    else
      let summary := entrySummary e
      if is_gamepass_related cfg e.title summary = true then
        let info := extract_game_info reSearch cfg e.title summary
        some
          { title := e.title
            link := e.link
            published := e.published.getD (chars "날짜 불명")
            summary := truncate_summary summary 300
            is_addition := info.1
            is_removal := info.2 }
      else none

/-- The per-entry body of the loop in `run`: call `process_article`; when
it returns an article (`if result:` — the dict is always truthy), append
it to `new_articles` and add `normalize_url(result['link'])` to the shared
seen set.  (`result['link']` is `entry.link`, whose normalization already
succeeded inside `process_article`, so the inner `none` case is
unreachable.)  Returns `(new articles, seen set)` after the whole list. -/
def processBatch (nfkcOk : Str → Bool) (reSearch : Str → Str → Bool)
    (cfg : Config) : List Entry → Finset Str → List Article × Finset Str
  | [], seen => ([], seen)
  | e :: rest, seen =>
    match process_article nfkcOk reSearch cfg e seen with
    | none => processBatch nfkcOk reSearch cfg rest seen
    | some a =>
      match normalize_url nfkcOk a.link with
      | none => processBatch nfkcOk reSearch cfg rest seen
      | some cid =>
        let r := processBatch nfkcOk reSearch cfg rest (insert cid seen)
        (a :: r.1, r.2)

/-! Run-level persistence trace (for the once-per-run persistence claim). -/

/-- Observable file-store events of one program run. -/
inductive Ev where
  | load
  | save (seen : Finset Str)
deriving DecidableEq

/-- Trace of seen-set store operations performed by
`GamePassNotifier.run`, given the seen set returned by the initial load
and the fetched feed (`none` models "fetch failed or empty feed", in which
case `run` saves, returns, and then saves again in the `finally` block;
otherwise the first 50 entries are processed and the `finally` block saves
once).  `send_email` catches its own exceptions and touches no file, and
per-entry exceptions are caught inside `process_article`, so the `except`
branch of `run` adds no further save. -/
def runTrace (nfkcOk : Str → Bool) (reSearch : Str → Str → Bool)
    (loaded : Finset Str) (feed : Option (List Entry)) : List Ev :=
  Ev.load ::
    match feed with
    | none => [Ev.save loaded, Ev.save loaded]
    | some [] => [Ev.save loaded, Ev.save loaded]
    | some entries =>
      [Ev.save (processBatch nfkcOk reSearch load_config
        (entries.take 50) loaded).2]

/-- Trace of seen-set store operations of one scheduled program run
(`GamePassNotifier()` then `.run()`): `__init__` ends with
`self.save_seen_articles(set())`, which overwrites the persistence file
with the empty mapping before `run` starts; consequently the load inside
`run` returns the empty set. -/
def mainTrace (nfkcOk : Str → Bool) (reSearch : Str → Str → Bool)
    (feed : Option (List Entry)) : List Ev :=
  Ev.save ∅ :: runTrace nfkcOk reSearch ∅ feed

/-- Number of persistence (save) events in a trace. -/
def saveCount (tr : List Ev) : Nat :=
  (tr.filter (fun ev => match ev with | Ev.save _ => true | Ev.load => false)).length

/-! Concrete external-call instances used by witnesses. -/

/-- NFKC netloc check instance that always passes (all witnesses below use
ASCII netlocs, for which the parameter is never consulted). -/
def nfkcTrue : Str → Bool := fun _ => true

/-- Regex search instance under which no pattern matches. -/
def reSearchFalse : Str → Str → Bool := fun _ _ => false

/-! Claim C1. -/

/-- Claim C1: the claim states the seen set is persisted exactly once per
run, at run end only, never before or during processing.  The code
contradicts this: on a run whose fetch yields no entries, `run` saves once
before its early `return` and once more in the `finally` block, and in
addition `__init__` has already saved an empty seen set before `run`
loaded anything — three persistence events, the first of them before any
processing. -/
theorem C1_persistence_not_once_per_run :
    mainTrace nfkcTrue reSearchFalse none =
      [Ev.save ∅, Ev.load, Ev.save ∅, Ev.save ∅] ∧
    saveCount (mainTrace nfkcTrue reSearchFalse none) = 3 ∧
    saveCount (runTrace nfkcTrue reSearchFalse ∅ none) = 2 :=
  ⟨rfl, rfl, rfl⟩

/-! Claim C3. -/

/-- A config file differing from the built-in defaults. -/
def zeldaConfig : Config :=
  { gamepass_keywords := [chars "zelda"], add_patterns := [], remove_patterns := [] }

/-- Claim C3 counterexample: per the claim, with a present and readable
external config file supplying keywords `["zelda"]`, the loaded
configuration would be that file's content (`load_config_spec (some
zeldaConfig)`); the source's `load_config` returns the hardcoded defaults
instead — it never reads a file. -/
theorem C3_counterexample_config_file_ignored :
    load_config_spec (some zeldaConfig) ≠ load_config := by
  decide

/-- Claim C3 (amended): keyword and pattern configuration is fixed once
per run to the built-in hardcoded default set; an external config file is
never consulted, so the code agrees with the spec's loader exactly when
the file is absent/unreadable (or happens to contain the defaults). -/
theorem C3_default_config_always_used :
    ∀ f : Option Config,
      load_config_spec f = load_config ↔ (f = none ∨ f = some load_config) := by
  intro f
  cases f <;> simp [load_config_spec]

/-! Claim C7. -/

/-- Claim C7: seen-set load never fails: a missing persistence file yields
the empty set, an unparsable file yields the empty set, and a legacy
plain-list file yields the empty set. -/
theorem C7_load_seen_articles_total :
    ∀ now : ℚ,
      load_seen_articles none now = ∅ ∧
      load_seen_articles (some none) now = ∅ ∧
      ∀ xs : List Json, load_seen_articles (some (some (Json.arr xs))) now = ∅ :=
  fun _ => ⟨rfl, rfl, fun _ => rfl⟩

/-! Claim C10. -/

/-- Claim C10: during seen-set load, a persisted entry whose timestamp
value fails the `isinstance(timestamp, (int, float))` test is silently
dropped while the rest of the mapping is kept — the file is not treated
as corrupt and the rest of the set survives. -/
theorem C10_malformed_timestamp_dropped :
    ∀ (pre post : List (Str × Json)) (k : Str) (v : Json) (now : ℚ),
      tsNum v = none →
      load_seen_articles (some (some (Json.obj (pre ++ (k, v) :: post)))) now =
        load_seen_articles (some (some (Json.obj (pre ++ post)))) now := by
  intro pre post k v now hv
  have hfresh : tsFresh now v = false := by
    unfold tsFresh
    rw [hv]
  simp only [load_seen_articles, List.filter_append, List.filter_cons]
  simp [hfresh]

/-- Claim C10 witness: a string-valued timestamp in the middle of the
mapping is dropped and the neighbouring entries survive. -/
theorem C10_witness :
    load_seen_articles
      (some (some (Json.obj
        [(chars "a", Json.num 5), (chars "bad", Json.str (chars "oops")),
         (chars "b", Json.num 6)]))) 10 =
    load_seen_articles
      (some (some (Json.obj [(chars "a", Json.num 5), (chars "b", Json.num 6)]))) 10 :=
  C10_malformed_timestamp_dropped [(chars "a", Json.num 5)]
    [(chars "b", Json.num 6)] (chars "bad") (Json.str (chars "oops")) 10 rfl

/-! Claim C6. -/

/-- Claim C6: seen-set load returns only keys whose stored timestamp is
strictly newer than `now - 30 days` (hence not more than 30 days in the
past), and seen-set save writes timestamp `now` for every member of the
given set and nothing else (the file is entirely overwritten), so every
save refreshes the TTL of the whole active set. -/
theorem C6_load_fresh_save_resets_ttl :
    (∀ (kvs : List (Str × Json)) (now : ℚ) (k : Str),
        k ∈ load_seen_articles (some (some (Json.obj kvs))) now →
        ∃ v t, (k, v) ∈ kvs ∧ tsNum v = some t ∧ now - t < thirtyDays) ∧
    (∀ (seen : Finset Str) (now : ℚ) (k : Str) (t : ℚ),
        (k, t) ∈ save_seen_articles seen now ↔ k ∈ seen ∧ t = now) := by
  constructor
  · intro kvs now k hk
    simp only [load_seen_articles, List.mem_toFinset, List.mem_map] at hk
    obtain ⟨kv, hkv, rfl⟩ := hk
    rw [List.mem_filter] at hkv
    obtain ⟨hmem, hfresh⟩ := hkv
    unfold tsFresh at hfresh
    cases hts : tsNum kv.2 with
    | none => rw [hts] at hfresh; cases hfresh
    | some t =>
      rw [hts] at hfresh
      exact ⟨kv.2, t, hmem, hts, by
        have := of_decide_eq_true hfresh
        linarith⟩
  · intro seen now k t
    simp only [save_seen_articles, Finset.mem_image]
    constructor
    · rintro ⟨a, ha, heq⟩
      obtain ⟨rfl, rfl⟩ := Prod.mk.injEq .. ▸ And.intro (congrArg Prod.fst heq) (congrArg Prod.snd heq)
      exact ⟨ha, rfl⟩
    · rintro ⟨hk, rfl⟩
      exact ⟨k, hk, rfl⟩

/-- Claim C6 witness: a concrete fresh entry is loaded and its stored
value is a fresh numeric timestamp; a concrete save membership instance. -/
theorem C6_witness :
    (∃ v t, (chars "a", v) ∈ [(chars "a", Json.num 5)] ∧ tsNum v = some t ∧
      (10 : ℚ) - t < thirtyDays) ∧
    ((chars "a", (7 : ℚ)) ∈ save_seen_articles {chars "a"} 7 ↔
      chars "a" ∈ ({chars "a"} : Finset Str) ∧ (7 : ℚ) = 7) :=
  ⟨C6_load_fresh_save_resets_ttl.1 [(chars "a", Json.num 5)] 10 (chars "a")
      (by
        have hf : tsFresh (10 : ℚ) (Json.num 5) = true := by
          unfold tsFresh tsNum thirtyDays
          norm_num
        simp [load_seen_articles, hf]),
   C6_load_fresh_save_resets_ttl.2 {chars "a"} 7 (chars "a") 7⟩

/-! Batch-processing lemmas shared by the dedup/frame/classification claims. -/

theorem processArticle_none_of_mem (nfkcOk : Str → Bool)
    (reSearch : Str → Str → Bool) (cfg : Config) (e : Entry)
    (seen : Finset Str) (cid : Str)
    (h1 : normalize_url nfkcOk e.link = some cid) (h2 : cid ∈ seen) :
    process_article nfkcOk reSearch cfg e seen = none := by
  simp only [process_article, h1]
  rw [if_pos h2]

theorem processArticle_some_elim {nfkcOk : Str → Bool}
    {reSearch : Str → Str → Bool} {cfg : Config} {e : Entry}
    {seen : Finset Str} {a : Article}
    (h : process_article nfkcOk reSearch cfg e seen = some a) :
    ∃ cid, normalize_url nfkcOk e.link = some cid ∧ cid ∉ seen ∧
      a.link = e.link := by
  cases hn : normalize_url nfkcOk e.link with
  | none =>
    simp only [process_article, hn] at h
    exact Option.noConfusion h
  | some cid =>
    simp only [process_article, hn] at h
    by_cases hm : cid ∈ seen
    · rw [if_pos hm] at h
      exact Option.noConfusion h
    · rw [if_neg hm] at h
      refine ⟨cid, rfl, hm, ?_⟩
      by_cases hrel :
          is_gamepass_related cfg e.title (entrySummary e) = true
      · rw [if_pos hrel] at h
        cases h
        rfl
      · rw [if_neg hrel] at h
        exact Option.noConfusion h

theorem processBatch_snd_append (nfkcOk : Str → Bool)
    (reSearch : Str → Str → Bool) (cfg : Config) (l₁ l₂ : List Entry)
    (seen : Finset Str) :
    (processBatch nfkcOk reSearch cfg (l₁ ++ l₂) seen).2 =
      (processBatch nfkcOk reSearch cfg l₂
        (processBatch nfkcOk reSearch cfg l₁ seen).2).2 := by
  induction l₁ generalizing seen with
  | nil => rfl
  | cons e t ih =>
    rw [List.cons_append]
    cases hp : process_article nfkcOk reSearch cfg e seen with
    | none =>
      simp only [processBatch, hp]
      exact ih seen
    | some a =>
      cases hn : normalize_url nfkcOk a.link with
      | none =>
        simp only [processBatch, hp, hn]
        exact ih seen
      | some cid =>
        simp only [processBatch, hp, hn]
        exact ih (insert cid seen)

theorem processBatch_seen_mono (nfkcOk : Str → Bool)
    (reSearch : Str → Str → Bool) (cfg : Config) (l : List Entry)
    (seen : Finset Str) :
    seen ⊆ (processBatch nfkcOk reSearch cfg l seen).2 := by
  induction l generalizing seen with
  | nil => exact Finset.Subset.refl seen
  | cons e t ih =>
    cases hp : process_article nfkcOk reSearch cfg e seen with
    | none =>
      simp only [processBatch, hp]
      exact ih seen
    | some a =>
      cases hn : normalize_url nfkcOk a.link with
      | none =>
        simp only [processBatch, hp, hn]
        exact ih seen
      | some cid =>
        simp only [processBatch, hp, hn]
        exact Finset.Subset.trans (Finset.subset_insert cid seen)
          (ih (insert cid seen))

/-! Claim C2. -/

/-- Claim C2: an entry whose canonical id is already in the seen set at the
moment it is processed produces no output, regardless of relevance or
classification (the seen check precedes both); consequently, when the same
entry occurs twice in one run's merged entry list and its first occurrence
produced an article (adding its canonical id to the shared seen set), the
second occurrence is skipped. -/
theorem C2_seen_entry_skipped :
    (∀ (nfkcOk : Str → Bool) (reSearch : Str → Str → Bool) (cfg : Config)
        (e : Entry) (seen : Finset Str) (cid : Str),
        normalize_url nfkcOk e.link = some cid → cid ∈ seen →
        process_article nfkcOk reSearch cfg e seen = none) ∧
    (∀ (nfkcOk : Str → Bool) (reSearch : Str → Str → Bool) (cfg : Config)
        (l₁ l₂ : List Entry) (e : Entry) (seen : Finset Str) (a : Article),
        process_article nfkcOk reSearch cfg e
          (processBatch nfkcOk reSearch cfg l₁ seen).2 = some a →
        process_article nfkcOk reSearch cfg e
          (processBatch nfkcOk reSearch cfg (l₁ ++ e :: l₂) seen).2 = none) := by
  constructor
  · exact fun n r cfg e seen cid h1 h2 =>
      processArticle_none_of_mem n r cfg e seen cid h1 h2
  · intro n r cfg l₁ l₂ e seen a h
    obtain ⟨cid, hnorm, _, hlink⟩ := processArticle_some_elim h
    set S₁ := (processBatch n r cfg l₁ seen).2 with hS₁
    have hstep : (processBatch n r cfg (e :: l₂) S₁).2 =
        (processBatch n r cfg l₂ (insert cid S₁)).2 := by
      simp only [processBatch, h]
      rw [hlink, hnorm]
    have hmem : cid ∈ (processBatch n r cfg (l₁ ++ e :: l₂) seen).2 := by
      rw [processBatch_snd_append, ← hS₁, hstep]
      exact processBatch_seen_mono n r cfg l₂ (insert cid S₁)
        (Finset.mem_insert_self cid S₁)
    exact processArticle_none_of_mem n r cfg e _ cid hnorm hmem

/-- Entry used by the C2 and C9 witnesses: a relevant, previously unseen
article. -/
def silkEntry : Entry :=
  { title := chars "Silksong day one"
    link := chars "http://n.ex/a?u=1"
    summary := none
    description := none
    published := none }

/-- Claim C2 witness: processing the same entry twice in one batch — the
first occurrence produces an article, the second is skipped. -/
theorem C2_witness :
    process_article nfkcTrue reSearchFalse load_config silkEntry
      (processBatch nfkcTrue reSearchFalse load_config
        ([] ++ silkEntry :: []) ∅).2 = none :=
  C2_seen_entry_skipped.2 nfkcTrue reSearchFalse load_config [] [] silkEntry ∅
    { title := chars "Silksong day one"
      link := chars "http://n.ex/a?u=1"
      published := chars "날짜 불명"
      summary := []
      is_addition := false
      is_removal := false }
    (by decide)

/-! Claim C8. -/

/-- Claim C8: a not-yet-seen entry whose concatenated title and summary
match no configured keyword produces no output, and processing it leaves
the seen set (and the output list) unchanged, so it stays eligible for
re-detection on a later run. -/
theorem C8_irrelevant_entry_no_output_no_mutation :
    ∀ (nfkcOk : Str → Bool) (reSearch : Str → Str → Bool) (cfg : Config)
      (e : Entry) (rest : List Entry) (seen : Finset Str) (cid : Str),
      normalize_url nfkcOk e.link = some cid → cid ∉ seen →
      is_gamepass_related cfg e.title (entrySummary e) = false →
      process_article nfkcOk reSearch cfg e seen = none ∧
      processBatch nfkcOk reSearch cfg (e :: rest) seen =
        processBatch nfkcOk reSearch cfg rest seen := by
  intro n r cfg e rest seen cid hnorm hseen hrel
  have hnone : process_article n r cfg e seen = none := by
    simp only [process_article, hnorm]
    rw [if_neg hseen, if_neg (by rw [hrel]; exact Bool.false_ne_true)]
  exact ⟨hnone, by simp only [processBatch, hnone]⟩

/-- Entry used by the C8 witness: unrelated to Game Pass. -/
def weatherEntry : Entry :=
  { title := chars "Weather report"
    link := chars "http://n.ex/w"
    summary := some (chars "Sunny tomorrow.")
    description := none
    published := none }

/-- Claim C8 witness: a concrete irrelevant entry is skipped and the batch
state is untouched. -/
theorem C8_witness :
    process_article nfkcTrue reSearchFalse load_config weatherEntry ∅ = none ∧
    processBatch nfkcTrue reSearchFalse load_config (weatherEntry :: []) ∅ =
      processBatch nfkcTrue reSearchFalse load_config [] ∅ :=
  C8_irrelevant_entry_no_output_no_mutation nfkcTrue reSearchFalse load_config
    weatherEntry [] ∅ (chars "http://n.ex/w") (by decide) (by decide) (by decide)

/-! Claim C9. -/

/-- Claim C9: an article that is relevant (some keyword matches) but whose
text matches no addition pattern and no removal pattern is still included
in the output, with `is_addition = false` and `is_removal = false` —
relevance and classification use independent rule sets and no mutual
exclusivity is enforced. -/
theorem C9_relevant_unclassified_included :
    ∀ (nfkcOk : Str → Bool) (reSearch : Str → Str → Bool) (cfg : Config)
      (e : Entry) (rest : List Entry) (seen : Finset Str) (cid : Str),
      normalize_url nfkcOk e.link = some cid → cid ∉ seen →
      is_gamepass_related cfg e.title (entrySummary e) = true →
      (∀ p ∈ cfg.add_patterns,
        reSearch p (classifierText e.title (entrySummary e)) = false) →
      (∀ p ∈ cfg.remove_patterns,
        reSearch p (classifierText e.title (entrySummary e)) = false) →
      ∃ a, process_article nfkcOk reSearch cfg e seen = some a ∧
        a.is_addition = false ∧ a.is_removal = false ∧
        (processBatch nfkcOk reSearch cfg (e :: rest) seen).1 =
          a :: (processBatch nfkcOk reSearch cfg rest (insert cid seen)).1 := by
  intro n r cfg e rest seen cid hnorm hseen hrel hadd hrem
  have hadd' : (cfg.add_patterns.any
      (fun p => r p (classifierText e.title (entrySummary e)))) = false := by
    rw [List.any_eq_false]
    intro p hp
    rw [hadd p hp]
    exact Bool.false_ne_true
  have hrem' : (cfg.remove_patterns.any
      (fun p => r p (classifierText e.title (entrySummary e)))) = false := by
    rw [List.any_eq_false]
    intro p hp
    rw [hrem p hp]
    exact Bool.false_ne_true
  refine ⟨{ title := e.title
            link := e.link
            published := e.published.getD (chars "날짜 불명")
            summary := truncate_summary (entrySummary e) 300
            is_addition := false
            is_removal := false }, ?_, rfl, rfl, ?_⟩
  · simp only [process_article, hnorm, extract_game_info, hadd', hrem']
    rw [if_neg hseen, if_pos hrel]
  · have hsome : process_article n r cfg e seen = some
        { title := e.title
          link := e.link
          published := e.published.getD (chars "날짜 불명")
          summary := truncate_summary (entrySummary e) 300
          is_addition := false
          is_removal := false } := by
      simp only [process_article, hnorm, extract_game_info, hadd', hrem']
      rw [if_neg hseen, if_pos hrel]
    simp only [processBatch, hsome, hnorm]

/-- Claim C9 witness: a concrete relevant entry (keyword `day one`) with a
regex oracle under which no pattern matches is included in the batch
output with both classification flags `false`. -/
theorem C9_witness :
    ∃ a, process_article nfkcTrue reSearchFalse load_config silkEntry ∅ =
        some a ∧
      a.is_addition = false ∧ a.is_removal = false ∧
      (processBatch nfkcTrue reSearchFalse load_config (silkEntry :: []) ∅).1 =
        a :: (processBatch nfkcTrue reSearchFalse load_config []
          (insert (chars "http://n.ex/a") ∅)).1 :=
  C9_relevant_unclassified_included nfkcTrue reSearchFalse load_config
    silkEntry [] ∅ (chars "http://n.ex/a") (by decide) (by decide) (by decide)
    (fun _ _ => rfl) (fun _ _ => rfl)

/-! Claim C4: lemmas about `truncate_summary`. -/

/-- Rebuild a sentence list the way the accumulation loop does: each
sentence is followed by `'. '`. -/
def rejoin : List Str → Str
  | [] => []
  | s :: rest => s ++ chars ". " ++ rejoin rest

theorem splitDotSpace_ne_nil (s : Str) : splitDotSpace s ≠ [] := by
  induction s using splitDotSpace.induct with
  | case1 => simp [splitDotSpace]
  | case2 c => simp [splitDotSpace]
  | case3 c₁ c₂ rest h ih =>
    simp [splitDotSpace, if_pos h]
  | case4 c₁ c₂ rest h hnil ih => exact absurd hnil ih
  | case5 c₁ c₂ rest h t ts hs ih =>
    simp [splitDotSpace, if_neg h, hs]

theorem rejoin_splitDotSpace (s : Str) :
    rejoin (splitDotSpace s) = s ++ chars ". " := by
  induction s using splitDotSpace.induct with
  | case1 => simp [splitDotSpace, rejoin, chars]
  | case2 c => simp [splitDotSpace, rejoin, chars]
  | case3 c₁ c₂ rest h ih =>
    obtain ⟨rfl, rfl⟩ := h
    simp only [splitDotSpace, if_pos (And.intro rfl rfl), rejoin, ih]
    simp [chars]
  | case4 c₁ c₂ rest h hnil ih => exact absurd hnil (splitDotSpace_ne_nil _)
  | case5 c₁ c₂ rest h t ts hs ih =>
    rw [hs] at ih
    simp only [splitDotSpace, if_neg h, hs, rejoin, List.cons_append,
      List.append_assoc] at ih ⊢
    rw [ih]

theorem truncLoop_length_le (m : Nat) :
    ∀ (ss : List Str) (acc : Str), acc.length ≤ m →
      (truncLoop m ss acc).length ≤ m := by
  intro ss
  induction ss with
  | nil => intro acc h; exact h
  | cons s rest ih =>
    intro acc h
    simp only [truncLoop]
    split
    next hfit => exact ih _ hfit
    next => exact h

theorem truncLoop_decompose (m : Nat) :
    ∀ (ss : List Str) (acc : Str),
      ∃ t r, truncLoop m ss acc = acc ++ t ∧ t ++ r = rejoin ss := by
  intro ss
  induction ss with
  | nil => exact fun acc => ⟨[], [], by simp [truncLoop], by simp [rejoin]⟩
  | cons s rest ih =>
    intro acc
    simp only [truncLoop]
    split
    next hfit =>
      obtain ⟨t, r, ht, hr⟩ := ih (acc ++ s ++ chars ". ")
      refine ⟨s ++ chars ". " ++ t, r, ?_, ?_⟩
      · rw [ht]
        simp [List.append_assoc]
      · simp [rejoin, ← hr, List.append_assoc]
    next =>
      exact ⟨[], rejoin (s :: rest), by simp, by simp⟩

theorem pyRstrip_decompose (t : Str) :
    ∃ w, pyRstrip t ++ w = t := by
  refine ⟨(t.reverse.takeWhile pyIsSpace).reverse, ?_⟩
  unfold pyRstrip
  rw [← List.reverse_append, List.takeWhile_append_dropWhile, List.reverse_reverse]

/-- Position `m` is a sentence boundary of `s`: it lies just after an
occurrence of the two-character separator `". "`.  The separator cannot
overlap itself (its two characters differ), so these positions are exactly
the split points of Python's `summary.split('. ')`. -/
def isBoundary (s : Str) (m : Nat) : Bool :=
  decide (2 ≤ m) && decide ((s.drop (m - 2)).take 2 = chars ". ")

/-- End positions of the `". "` separators between consecutive pieces of a
split result (cumulative lengths including the two separator characters). -/
def boundarySums : List Str → List Nat
  | [] => []
  | [_] => []
  | p :: q :: rest =>
    (p.length + 2) :: (boundarySums (q :: rest)).map (fun m => p.length + 2 + m)

theorem isBoundary_iff (s : Str) (m : Nat) :
    isBoundary s m = true ↔ (2 ≤ m ∧ (s.drop (m - 2)).take 2 = ['.', ' ']) := by
  unfold isBoundary
  rw [show chars ". " = ['.', ' '] from rfl]
  simp [Bool.and_eq_true]

theorem isBoundary_short {s : Str} (hs : s.length ≤ 1) (m : Nat) :
    isBoundary s m = false := by
  cases hb : isBoundary s m
  · rfl
  · exfalso
    rw [isBoundary_iff] at hb
    have hlen : ((s.drop (m - 2)).take 2).length = 2 := by rw [hb.2]; rfl
    rw [List.length_take, List.length_drop] at hlen
    omega

theorem isBoundary_cons_step {c₁ c₂ : Char} {rest : Str}
    (h : ¬(c₁ = '.' ∧ c₂ = ' ')) (m : Nat) :
    isBoundary (c₁ :: c₂ :: rest) m = true ↔
      (3 ≤ m ∧ isBoundary (c₂ :: rest) (m - 1) = true) := by
  rw [isBoundary_iff, isBoundary_iff]
  match m with
  | 0 => simp
  | 1 => simp
  | 2 =>
    constructor
    · intro hb
      have h2 := hb.2
      rw [List.drop_zero, List.take_succ_cons, List.take_succ_cons,
        List.take_zero] at h2
      injection h2 with h2a h2rest
      injection h2rest with h2b
      exact absurd ⟨h2a, h2b⟩ h
    · intro hb
      exact absurd hb.1 (by omega)
  | n + 3 =>
    constructor
    · intro hb
      refine ⟨by omega, by omega, ?_⟩
      have h2 := hb.2
      rw [show n + 3 - 2 = n + 1 from rfl, List.drop_succ_cons] at h2
      rw [show n + 3 - 1 - 2 = n from rfl]
      exact h2
    · intro hb
      refine ⟨by omega, ?_⟩
      have h2 := hb.2.2
      rw [show n + 3 - 1 - 2 = n from rfl] at h2
      rw [show n + 3 - 2 = n + 1 from rfl, List.drop_succ_cons]
      exact h2

theorem isBoundary_dotspace_step (rest : Str) (m : Nat) :
    isBoundary ('.' :: ' ' :: rest) m = true ↔
      (m = 2 ∨ (4 ≤ m ∧ isBoundary rest (m - 2) = true)) := by
  rw [isBoundary_iff, isBoundary_iff]
  match m with
  | 0 => simp
  | 1 => simp
  | 2 =>
    constructor
    · intro _
      exact Or.inl rfl
    · intro _
      refine ⟨by omega, ?_⟩
      rw [List.drop_zero]
      rfl
  | 3 =>
    constructor
    · intro hb
      exfalso
      have h2 := hb.2
      rw [show (3 : Nat) - 2 = 1 from rfl, List.drop_succ_cons,
        List.drop_zero, List.take_succ_cons] at h2
      injection h2 with ha _
      exact absurd ha (by decide)
    · intro hb
      rcases hb with h2 | ⟨h4, _⟩
      · exact absurd h2 (by omega)
      · exact absurd h4 (by omega)
  | n + 4 =>
    constructor
    · intro hb
      refine Or.inr ⟨by omega, by omega, ?_⟩
      have h2 := hb.2
      rw [show n + 4 - 2 = n + 2 from rfl, List.drop_succ_cons,
        List.drop_succ_cons] at h2
      rw [show n + 4 - 2 - 2 = n from rfl]
      exact h2
    · intro hb
      rcases hb with h2 | ⟨h4, _, htk⟩
      · exact absurd h2 (by omega)
      · refine ⟨by omega, ?_⟩
        rw [show n + 4 - 2 = n + 2 from rfl, List.drop_succ_cons,
          List.drop_succ_cons]
        rw [show n + 4 - 2 - 2 = n from rfl] at htk
        exact htk

theorem boundarySums_cons (c : Char) (t : Str) (ts : List Str) :
    boundarySums ((c :: t) :: ts) =
      (boundarySums (t :: ts)).map (fun m => m + 1) := by
  cases ts with
  | nil => rfl
  | cons q rest =>
    simp only [boundarySums, List.map_cons, List.map_map, List.length_cons]
    have h1 : t.length + 1 + 2 = t.length + 2 + 1 := by omega
    have h2 : (fun m => t.length + 1 + 2 + m) =
        ((fun m : Nat => m + 1) ∘ fun m => t.length + 2 + m) := by
      funext m
      simp only [Function.comp_apply]
      omega
    rw [h1, h2]

theorem boundarySums_ge_two : ∀ (ps : List Str), ∀ b ∈ boundarySums ps, 2 ≤ b := by
  intro ps
  induction ps with
  | nil => simp [boundarySums]
  | cons p rest ih =>
    cases rest with
    | nil => simp [boundarySums]
    | cons q rest' =>
      intro b hb
      simp only [boundarySums, List.mem_cons, List.mem_map] at hb
      rcases hb with rfl | ⟨b', hb', rfl⟩
      · omega
      · have := ih b' hb'
        omega

/-- The sentence boundaries of `s` are exactly the cumulative split points
of `splitDotSpace s`. -/
theorem isBoundary_iff_mem (s : Str) :
    ∀ m, isBoundary s m = true ↔ m ∈ boundarySums (splitDotSpace s) := by
  induction s using splitDotSpace.induct with
  | case1 =>
    intro m
    rw [show splitDotSpace [] = [[]] from rfl,
      show boundarySums [[]] = [] from rfl]
    simp [isBoundary_short (by simp : ([] : Str).length ≤ 1)]
  | case2 c =>
    intro m
    rw [show splitDotSpace [c] = [[c]] from rfl,
      show boundarySums [[c]] = [] from rfl]
    simp [isBoundary_short (by simp : ([c] : Str).length ≤ 1)]
  | case3 c₁ c₂ rest h ih =>
    obtain ⟨rfl, rfl⟩ := h
    intro m
    rw [isBoundary_dotspace_step]
    rw [show splitDotSpace ('.' :: ' ' :: rest) = [] :: splitDotSpace rest by
      simp [splitDotSpace]]
    obtain ⟨q, ts, hq⟩ : ∃ q ts, splitDotSpace rest = q :: ts := by
      cases hsr : splitDotSpace rest with
      | nil => exact absurd hsr (splitDotSpace_ne_nil rest)
      | cons q ts => exact ⟨q, ts, rfl⟩
    rw [hq]
    rw [hq] at ih
    rw [show boundarySums ([] :: q :: ts) =
      2 :: (boundarySums (q :: ts)).map (fun b => 2 + b) from rfl]
    simp only [List.mem_cons, List.mem_map]
    constructor
    · rintro (rfl | ⟨h4, hb⟩)
      · exact Or.inl rfl
      · exact Or.inr ⟨m - 2, (ih (m - 2)).mp hb, by omega⟩
    · rintro (rfl | ⟨b, hbmem, rfl⟩)
      · exact Or.inl rfl
      · have hb2 : 2 ≤ b := boundarySums_ge_two (q :: ts) b hbmem
        refine Or.inr ⟨by omega, ?_⟩
        rw [show 2 + b - 2 = b from by omega]
        exact (ih b).mpr hbmem
  | case4 c₁ c₂ rest h hnil ih => exact absurd hnil (splitDotSpace_ne_nil _)
  | case5 c₁ c₂ rest h t ts hs ih =>
    intro m
    rw [isBoundary_cons_step h]
    rw [show splitDotSpace (c₁ :: c₂ :: rest) = (c₁ :: t) :: ts by
      simp only [splitDotSpace, if_neg h, hs]]
    rw [boundarySums_cons]
    rw [hs] at ih
    simp only [List.mem_map]
    constructor
    · rintro ⟨h3, hb⟩
      exact ⟨m - 1, (ih (m - 1)).mp hb, by omega⟩
    · rintro ⟨b, hbmem, rfl⟩
      have hb2 : 2 ≤ b := boundarySums_ge_two (t :: ts) b hbmem
      refine ⟨by omega, ?_⟩
      rw [show b + 1 - 1 = b from by omega]
      exact (ih b).mpr hbmem

/-- The greedy loop lands exactly on the last split point that fits the
limit: provided the whole joined text exceeds the limit, the loop either
adds nothing (when even the first split point overflows) or stops with
length `acc.length + b` for the largest split point `b` that fits. -/
theorem truncLoop_last_boundary (limit : Nat) :
    ∀ (ps : List Str) (acc : Str),
      limit < acc.length + (rejoin ps).length →
      (truncLoop limit ps acc = acc ∧
        ∀ b ∈ boundarySums ps, limit < acc.length + b) ∨
      (∃ b, b ∈ boundarySums ps ∧ acc.length + b ≤ limit ∧
        (truncLoop limit ps acc).length = acc.length + b ∧
        ∀ b' ∈ boundarySums ps, acc.length + b' ≤ limit → b' ≤ b) := by
  intro ps
  induction ps with
  | nil =>
    intro acc _
    left
    exact ⟨rfl, by simp [boundarySums]⟩
  | cons p rest ih =>
    intro acc hinv
    cases rest with
    | nil =>
      have hr : (rejoin [p]).length = p.length + 2 := by
        simp [rejoin, chars]
      rw [hr] at hinv
      have hcond : ¬ (acc ++ p ++ chars ". ").length ≤ limit := by
        simp only [List.length_append]
        rw [show (chars ". ").length = 2 from rfl]
        omega
      left
      refine ⟨?_, by simp [boundarySums]⟩
      simp only [truncLoop]
      rw [if_neg hcond]
    | cons q rest' =>
      have hun : truncLoop limit (p :: q :: rest') acc =
          if (acc ++ p ++ chars ". ").length ≤ limit then
            truncLoop limit (q :: rest') (acc ++ p ++ chars ". ")
          else acc := rfl
      have hrej : (rejoin (p :: q :: rest')).length =
          p.length + 2 + (rejoin (q :: rest')).length := by
        simp only [rejoin, List.length_append]
        rw [show (chars ". ").length = 2 from rfl]
      by_cases hfit : (acc ++ p ++ chars ". ").length ≤ limit
      · set acc' := acc ++ p ++ chars ". " with hacc'
        have hacc'len : acc'.length = acc.length + p.length + 2 := by
          rw [hacc']
          simp only [List.length_append]
          rw [show (chars ". ").length = 2 from rfl]
        have hinv' : limit < acc'.length + (rejoin (q :: rest')).length := by
          rw [hrej] at hinv
          omega
        rcases ih acc' hinv' with ⟨hres, hall⟩ | ⟨b₀, hb₀mem, hb₀fit, hb₀len, hb₀max⟩
        · right
          refine ⟨p.length + 2, by simp [boundarySums], by omega, ?_, ?_⟩
          · rw [hun, if_pos hfit, hres]
            omega
          · intro b' hb' hble
            simp only [boundarySums, List.mem_cons, List.mem_map] at hb'
            rcases hb' with rfl | ⟨b'', hb''mem, rfl⟩
            · omega
            · have := hall b'' hb''mem
              omega
        · right
          refine ⟨p.length + 2 + b₀, ?_, by omega, ?_, ?_⟩
          · simp only [boundarySums, List.mem_cons, List.mem_map]
            exact Or.inr ⟨b₀, hb₀mem, rfl⟩
          · rw [hun, if_pos hfit]
            omega
          · intro b' hb' hble
            simp only [boundarySums, List.mem_cons, List.mem_map] at hb'
            rcases hb' with rfl | ⟨b'', hb''mem, rfl⟩
            · omega
            · have := hb₀max b'' hb''mem (by omega)
              omega
      · left
        have hlen : limit < acc.length + p.length + 2 := by
          simp only [List.length_append] at hfit
          rw [show (chars ". ").length = 2 from rfl] at hfit
          omega
        refine ⟨by rw [hun, if_neg hfit], ?_⟩
        intro b hb
        simp only [boundarySums, List.mem_cons, List.mem_map] at hb
        rcases hb with rfl | ⟨b'', hb''mem, rfl⟩
        · omega
        · omega

/-- Claim C4 (amended): a summary of at most 300 characters is returned
unchanged.  For a longer summary, if `M` is the last `'. '` sentence
boundary not exceeding 300 characters, the result is the summary's prefix
up to `M`, right-stripped, plus the three-character ellipsis; when no
sentence boundary lies within the limit, the result is the hard cut
`summary[:300] + "..."`.  Either way the stored summary is at most 303
characters — not at most 300 as the claim states. -/
theorem C4_truncate_summary_shape :
    ∀ s : Str,
      (s.length ≤ 300 → truncate_summary s 300 = s) ∧
      (300 < s.length → ∀ M, isBoundary s M = true → M ≤ 300 →
        (∀ m ≤ 300, M < m → isBoundary s m = false) →
        truncate_summary s 300 = pyRstrip (s.take M) ++ chars "...") ∧
      (300 < s.length → (∀ m ≤ 300, isBoundary s m = false) →
        truncate_summary s 300 = s.take 300 ++ chars "...") ∧
      (300 < s.length → (truncate_summary s 300).length ≤ 303) := by
  intro s
  have hinv : 300 < s.length →
      300 < ([] : Str).length + (rejoin (splitDotSpace s)).length := by
    intro hlong
    rw [rejoin_splitDotSpace]
    simp only [List.length_nil, List.length_append]
    rw [show (chars ". ").length = 2 from rfl]
    omega
  refine ⟨fun h => by simp [truncate_summary, h], ?_, ?_, ?_⟩
  · intro hlong M hM hMle hMmax
    have hnle : ¬ s.length ≤ 300 := by omega
    simp only [truncate_summary, if_neg hnle]
    set tr := truncLoop 300 (splitDotSpace s) [] with htrdef
    rcases truncLoop_last_boundary 300 (splitDotSpace s) [] (hinv hlong) with
      ⟨_, hall⟩ | ⟨b, hbmem, hble, hblen, hbmax⟩
    · exfalso
      have hMmem : M ∈ boundarySums (splitDotSpace s) :=
        (isBoundary_iff_mem s M).mp hM
      have := hall M hMmem
      simp only [List.length_nil] at this
      omega
    · rw [← htrdef] at hblen
      simp only [List.length_nil, Nat.zero_add] at hble hblen
      have hbM : b = M := by
        have h1 : M ≤ b := by
          refine hbmax M ((isBoundary_iff_mem s M).mp hM) ?_
          simpa using hMle
        by_contra hne
        have hMb : M < b := by omega
        have hbound : isBoundary s b = false := hMmax b hble hMb
        have htrue : isBoundary s b = true := (isBoundary_iff_mem s b).mpr hbmem
        rw [hbound] at htrue
        exact Bool.false_ne_true htrue
      rw [hbM] at hblen
      have hM2 : 2 ≤ M := by
        rw [isBoundary_iff] at hM
        exact hM.1
      have htrne : tr ≠ [] := by
        intro hnil
        rw [hnil] at hblen
        simp at hblen
        omega
      rw [if_pos htrne]
      obtain ⟨t, r, ht, hr⟩ := truncLoop_decompose 300 (splitDotSpace s) []
      rw [rejoin_splitDotSpace] at hr
      rw [← htrdef] at ht
      have htr_eq : tr = t := by rw [ht]; simp
      have htake : tr = s.take M := by
        have h1 : (t ++ r).take t.length = t := List.take_left t r
        rw [hr] at h1
        have htlen : t.length = M := by rw [← htr_eq]; exact hblen
        rw [htlen] at h1
        rw [List.take_append_of_le_length (by omega : M ≤ s.length)] at h1
        rw [htr_eq, ← h1]
      rw [htake]
  · intro hlong hnob
    have hnle : ¬ s.length ≤ 300 := by omega
    simp only [truncate_summary, if_neg hnle]
    rcases truncLoop_last_boundary 300 (splitDotSpace s) [] (hinv hlong) with
      ⟨hres, _⟩ | ⟨b, hbmem, hble, _, _⟩
    · rw [hres]
      simp
    · exfalso
      simp only [List.length_nil, Nat.zero_add] at hble
      have htrue : isBoundary s b = true := (isBoundary_iff_mem s b).mpr hbmem
      rw [hnob b hble] at htrue
      exact Bool.false_ne_true htrue
  · intro hlong
    have hnle : ¬ s.length ≤ 300 := by omega
    simp only [truncate_summary, if_neg hnle]
    split
    next htr =>
      have hlen : (truncLoop 300 (splitDotSpace s) []).length ≤ 300 :=
        truncLoop_length_le 300 (splitDotSpace s) [] (by simp)
      obtain ⟨w, hw⟩ := pyRstrip_decompose (truncLoop 300 (splitDotSpace s) [])
      have hwl : (pyRstrip (truncLoop 300 (splitDotSpace s) [])).length +
          w.length = (truncLoop 300 (splitDotSpace s) []).length := by
        rw [← List.length_append, hw]
      simp only [List.length_append]
      rw [show (chars "...").length = 3 from rfl]
      omega
    next =>
      simp only [List.length_append, List.length_take]
      rw [show (chars "...").length = 3 from rfl]
      omega

/-- Claim C4 counterexample: for a 301-character summary with no sentence
boundary, the stored summary is `301`-char prefix truncated to 300 plus
the three-character ellipsis — 303 characters, contradicting the claimed
300-character bound. -/
theorem C4_counterexample_truncated_exceeds_300 :
    ¬ ((truncate_summary (List.replicate 301 'a') 300).length ≤ 300) := by
  set_option maxRecDepth 4000 in decide

/-- Claim C4 witness: the boundary-cut branch applied to a 306-character
summary whose last (and only) sentence boundary within the limit is at
position 6, and the hard-cut branch applied to the boundary-free
301-character summary. -/
theorem C4_witness :
    truncate_summary (chars "Word. " ++ List.replicate 300 'a') 300 =
      pyRstrip ((chars "Word. " ++ List.replicate 300 'a').take 6) ++
        chars "..." ∧
    truncate_summary (List.replicate 301 'a') 300 =
      (List.replicate 301 'a').take 300 ++ chars "..." := by
  constructor
  · exact (C4_truncate_summary_shape
        (chars "Word. " ++ List.replicate 300 'a')).2.1
      (by set_option maxRecDepth 4000 in decide) 6
      (by set_option maxRecDepth 4000 in decide)
      (by decide)
      (by set_option maxRecDepth 8000 in decide)
  · exact (C4_truncate_summary_shape (List.replicate 301 'a')).2.2.1
      (by simp only [List.length_replicate]; omega)
      (by set_option maxRecDepth 8000 in decide)

/-! Claim C5: character-class facts for the URL parser. -/

theorem uint32_le_iff (a b : UInt32) : (a ≤ b) ↔ a.toNat ≤ b.toNat := by
  rw [UInt32.le_def, BitVec.le_def]
  exact Iff.rfl

theorem char_isUpper_iff (c : Char) :
    c.isUpper = true ↔ (65 ≤ c.toNat ∧ c.toNat ≤ 90) := by
  simp only [Char.isUpper, Bool.and_eq_true, decide_eq_true_eq, uint32_le_iff]
  exact Iff.rfl

theorem char_isLower_iff (c : Char) :
    c.isLower = true ↔ (97 ≤ c.toNat ∧ c.toNat ≤ 122) := by
  simp only [Char.isLower, Bool.and_eq_true, decide_eq_true_eq, uint32_le_iff]
  exact Iff.rfl

theorem char_isAlpha_iff (c : Char) :
    c.isAlpha = true ↔
      ((65 ≤ c.toNat ∧ c.toNat ≤ 90) ∨ (97 ≤ c.toNat ∧ c.toNat ≤ 122)) := by
  simp only [Char.isAlpha, Bool.or_eq_true, char_isUpper_iff, char_isLower_iff]

theorem char_isDigit_iff (c : Char) :
    c.isDigit = true ↔ (48 ≤ c.toNat ∧ c.toNat ≤ 57) := by
  simp only [Char.isDigit, Bool.and_eq_true, decide_eq_true_eq, uint32_le_iff]
  exact Iff.rfl

theorem char_eq_lit {c d : Char} : c = d ↔ c.toNat = d.toNat := char_eq_iff_toNat

theorem isSchemeChar_iff (c : Char) :
    isSchemeChar c = true ↔
      ((65 ≤ c.toNat ∧ c.toNat ≤ 90) ∨ (97 ≤ c.toNat ∧ c.toNat ≤ 122) ∨
       (48 ≤ c.toNat ∧ c.toNat ≤ 57) ∨ c.toNat = 43 ∨ c.toNat = 45 ∨
       c.toNat = 46) := by
  simp only [isSchemeChar, Bool.or_eq_true, char_isAlpha_iff, char_isDigit_iff,
    beq_iff_eq, char_eq_lit]
  rw [show ('+').toNat = 43 from rfl, show ('-').toNat = 45 from rfl,
    show ('.').toNat = 46 from rfl]
  omega

theorem unsafeChar_iff (c : Char) :
    unsafeChar c = true ↔ (c.toNat = 9 ∨ c.toNat = 13 ∨ c.toNat = 10) := by
  simp only [unsafeChar, Bool.or_eq_true, beq_iff_eq, char_eq_lit]
  rw [show ('\t').toNat = 9 from rfl, show ('\r').toNat = 13 from rfl,
    show ('\n').toNat = 10 from rfl]
  omega

theorem isNetDelim_iff (c : Char) :
    isNetDelim c = true ↔ (c.toNat = 47 ∨ c.toNat = 63 ∨ c.toNat = 35) := by
  simp only [isNetDelim, Bool.or_eq_true, beq_iff_eq, char_eq_lit]
  rw [show ('/').toNat = 47 from rfl, show ('?').toNat = 63 from rfl,
    show ('#').toNat = 35 from rfl]
  omega

/-- Facts about scheme characters: none of them is a delimiter or an
unsafe byte. -/
theorem schemeChar_facts {c : Char} (h : isSchemeChar c = true) :
    c ≠ ':' ∧ c ≠ '/' ∧ c ≠ '?' ∧ c ≠ '#' ∧ unsafeChar c = false ∧
      isNetDelim c = false := by
  rw [isSchemeChar_iff] at h
  refine ⟨?_, ?_, ?_, ?_, ?_, ?_⟩
  · intro hc
    rw [char_eq_lit, show (':').toNat = 58 from rfl] at hc
    omega
  · intro hc
    rw [char_eq_lit, show ('/').toNat = 47 from rfl] at hc
    omega
  · intro hc
    rw [char_eq_lit, show ('?').toNat = 63 from rfl] at hc
    omega
  · intro hc
    rw [char_eq_lit, show ('#').toNat = 35 from rfl] at hc
    omega
  · rw [← Bool.not_eq_true, unsafeChar_iff]
    omega
  · rw [← Bool.not_eq_true, isNetDelim_iff]
    omega

theorem isSchemeChar_toLower {c : Char} (h : isSchemeChar c = true) :
    isSchemeChar c.toLower = true := by
  rw [isSchemeChar_iff] at h ⊢
  rw [toLower_toNat]
  split <;> omega

theorem isAlpha_toLower {c : Char} (h : c.isAlpha = true) :
    c.toLower.isAlpha = true := by
  rw [char_isAlpha_iff] at h ⊢
  rw [toLower_toNat]
  split <;> omega

/-! Claim C5: additional `takeWhile` / `dropWhile` facts. -/

theorem takeWhile_eq_self_of_all {p : Char → Bool} {l : Str}
    (h : ∀ c ∈ l, p c = true) : l.takeWhile p = l := by
  have hthis : (l ++ []).takeWhile p = l ++ ([] : Str).takeWhile p :=
    takeWhile_append_all h
  simpa using hthis

theorem dropWhile_eq_nil_of_all {p : Char → Bool} {l : Str}
    (h : ∀ c ∈ l, p c = true) : l.dropWhile p = [] := by
  have hthis : (l ++ []).dropWhile p = ([] : Str).dropWhile p :=
    dropWhile_append_all h
  simpa using hthis

theorem takeWhile_length_lt {p : Char → Bool} {l : Str}
    (h : ¬ ∀ c ∈ l, p c = true) : (l.takeWhile p).length < l.length := by
  induction l with
  | nil => exact absurd (by simp) h
  | cons c t ih =>
    by_cases hc : p c = true
    · have ht : ¬ ∀ x ∈ t, p x = true := by
        intro hall
        exact h fun x hx => by
          rcases List.mem_cons.mp hx with rfl | hx
          · exact hc
          · exact hall x hx
      have h2 := ih ht
      simp only [List.takeWhile_cons, hc]
      simp only [if_true, List.length_cons]
      omega
    · simp [List.takeWhile_cons, hc]

theorem dropWhile_head_fails {p : Char → Bool} {l : Str}
    (h : ¬ ∀ c ∈ l, p c = true) :
    ∃ c t, l.dropWhile p = c :: t ∧ p c = false := by
  induction l with
  | nil => exact absurd (by simp) h
  | cons c t ih =>
    rw [List.dropWhile_cons]
    by_cases hc : p c = true
    · rw [hc]
      simp only [if_pos rfl]
      refine ih ?_
      intro hall
      exact h fun x hx => by
        rcases List.mem_cons.mp hx with rfl | hx
        · exact hc
        · exact hall x hx
    · rw [Bool.not_eq_true] at hc
      rw [hc]
      exact ⟨c, t, by simp, hc⟩

/-! Claim C5: lemmas about the scheme-splitting stage. -/

theorem schemeSplit_of_scheme (s r : Str) (hall : s.all isSchemeChar = true)
    (hhead : (s.headD ' ').isAlpha = true) :
    schemeSplit (s ++ ':' :: r) = (s.map Char.toLower, r) := by
  have hs_ne : s ≠ [] := by
    intro h
    rw [h] at hhead
    simp at hhead
  have hall' : ∀ c ∈ s, isSchemeChar c = true := by
    rw [List.all_eq_true] at hall
    exact fun c hc => hall c hc
  have hpre : (s ++ ':' :: r).takeWhile (fun c => c != ':') = s := by
    rw [takeWhile_append_all (fun c hc => by
      simp only [bne_iff_ne, ne_eq, decide_eq_true_eq]
      exact (schemeChar_facts (hall' c hc)).1)]
    simp [List.takeWhile_cons]
  have hhead' : ((s ++ ':' :: r).headD ' ').isAlpha = true := by
    cases s with
    | nil => exact absurd rfl hs_ne
    | cons c t => simpa using hhead
  have hdrop : (s ++ ':' :: r).drop (s.length + 1) = r := by
    have h1 : s ++ ':' :: r = (s ++ [':']) ++ r := by simp
    have h2 : (s ++ [':']).length = s.length + 1 := by simp
    rw [h1, ← h2, List.drop_left]
  unfold schemeSplit
  rw [hpre]
  rw [if_pos ⟨by simp, hs_ne, hhead', hall⟩, hdrop]

theorem schemeSplit_none_of_head (u : Str)
    (h : (u.headD ' ').isAlpha = false) : schemeSplit u = ([], u) := by
  unfold schemeSplit
  rw [if_neg]
  intro hg
  rw [h] at hg
  exact Bool.false_ne_true hg.2.2.1

theorem schemeSplit_snd_subset (u : Str) : (schemeSplit u).2 ⊆ u := by
  unfold schemeSplit
  dsimp only
  split
  · exact List.drop_subset _ u
  · exact fun c hc => hc

theorem schemeSplit_fst_nil {u : Str} (h : (schemeSplit u).1 = []) :
    schemeSplit u = ([], u) := by
  unfold schemeSplit at h ⊢
  dsimp only at h ⊢
  split at h
  next hg =>
    rw [List.map_eq_nil] at h
    exact absurd h hg.2.1
  next hg => rw [if_neg hg]

theorem schemeSplit_fst_props (u : Str) :
    (schemeSplit u).1 = [] ∨
    ((schemeSplit u).1.all isSchemeChar = true ∧
     (((schemeSplit u).1).headD ' ').isAlpha = true ∧
     (schemeSplit u).1.map Char.toLower = (schemeSplit u).1) := by
  unfold schemeSplit
  dsimp only
  split
  next hg =>
    right
    obtain ⟨hlen, hne, hhead, hall⟩ := hg
    rw [List.all_eq_true] at hall
    refine ⟨?_, ?_, ?_⟩
    · rw [List.all_eq_true]
      intro c hc
      simp only [List.mem_map] at hc
      obtain ⟨c', hc', rfl⟩ := hc
      exact isSchemeChar_toLower (hall c' hc')
    · cases hpre : u.takeWhile (fun c => c != ':') with
      | nil => exact absurd hpre hne
      | cons c t =>
        have hc : c ∈ u.takeWhile (fun c => c != ':') := by
          rw [hpre]
          exact List.mem_cons_self c t
        have hcu : u.headD ' ' = c := by
          cases u with
          | nil => simp at hpre
          | cons a b =>
            rw [List.takeWhile_cons] at hpre
            by_cases ha : (a != ':') = true
            · rw [ha] at hpre
              simp only [if_true] at hpre
              injection hpre with h1 h2
            · rw [Bool.not_eq_true] at ha
              rw [ha] at hpre
              simp at hpre
        rw [hcu] at hhead
        simp only [hpre, List.map_cons, List.headD_cons]
        exact isAlpha_toLower hhead
    · rw [List.map_map]
      apply List.map_congr_left
      intro c _
      exact toLower_toLower c
  next hg => left; rfl

theorem schemeSplit_prefix_fail {p tail u : Str} (hu : p ++ tail = u)
    (hfail : schemeSplit u = ([], u)) : schemeSplit p = ([], p) := by
  by_cases hcp : ∀ c ∈ p, (c != ':') = true
  · unfold schemeSplit
    rw [if_neg]
    intro hg
    rw [takeWhile_eq_self_of_all hcp] at hg
    exact absurd hg.1 (by omega)
  · have hpre_eq : u.takeWhile (fun c => c != ':') =
        p.takeWhile (fun c => c != ':') := by
      rw [← hu, takeWhile_append_stop tail hcp]
    have hlen_u : (u.takeWhile (fun c => c != ':')).length < u.length := by
      apply takeWhile_length_lt
      intro hall
      exact hcp fun c hc => hall c (by rw [← hu]; exact List.mem_append_left _ hc)
    have hp_ne : p ≠ [] := by
      intro h
      rw [h] at hcp
      exact hcp (by simp)
    have hhead_eq : u.headD ' ' = p.headD ' ' := by
      cases p with
      | nil => exact absurd rfl hp_ne
      | cons c t => rw [← hu]; rfl
    have hfail_guard : ¬ ((u.takeWhile (fun c => c != ':')).length < u.length ∧
        u.takeWhile (fun c => c != ':') ≠ [] ∧ (u.headD ' ').isAlpha = true ∧
        (u.takeWhile (fun c => c != ':')).all isSchemeChar = true) := by
      intro hg
      unfold schemeSplit at hfail
      rw [if_pos hg] at hfail
      have h1 := congrArg Prod.fst hfail
      simp only at h1
      rw [List.map_eq_nil] at h1
      exact hg.2.1 h1
    unfold schemeSplit
    rw [if_neg]
    intro hg
    exact hfail_guard ⟨hlen_u, by rw [hpre_eq]; exact hg.2.1,
      by rw [hhead_eq]; exact hg.2.2.1, by rw [hpre_eq]; exact hg.2.2.2⟩

/-! Claim C5: lemmas about the netloc and `split(sep, 1)` stages. -/

theorem netlocSplit_of_netloc (n p' : Str)
    (hn : ∀ c ∈ n, isNetDelim c = false)
    (hp' : p' = [] ∨ ∃ c t, p' = c :: t ∧ isNetDelim c = true) :
    netlocSplit (['/', '/'] ++ n ++ p') = (n, p') := by
  unfold netlocSplit
  rw [if_pos (by simp)]
  have hdrop : (['/', '/'] ++ n ++ p').drop 2 = n ++ p' := by
    rw [List.append_assoc]
    exact List.drop_left ['/', '/'] (n ++ p')
  rw [hdrop]
  have hnall : ∀ c ∈ n, (!isNetDelim c) = true := by
    intro c hc
    rw [hn c hc]
    rfl
  rcases hp' with rfl | ⟨c, t, rfl, hc⟩
  · rw [List.append_nil, takeWhile_eq_self_of_all hnall,
      dropWhile_eq_nil_of_all hnall]
  · rw [takeWhile_append_all hnall, dropWhile_append_all hnall,
      List.takeWhile_cons, List.dropWhile_cons]
    rw [hc]
    simp

theorem netlocSplit_none {u : Str} (h : u.take 2 ≠ ['/', '/']) :
    netlocSplit u = ([], u) := by
  unfold netlocSplit
  rw [if_neg h]

theorem netlocSplit_fst_no_delim (u : Str) :
    ∀ c ∈ (netlocSplit u).1, isNetDelim c = false := by
  unfold netlocSplit
  split
  · intro c hc
    have := pred_of_mem_takeWhile hc
    rwa [Bool.not_eq_true'] at this
  · intro c hc
    simp at hc

theorem netlocSplit_fst_subset (u : Str) : (netlocSplit u).1 ⊆ u := by
  unfold netlocSplit
  split
  · intro c hc
    exact List.drop_subset 2 u (mem_of_mem_takeWhile hc)
  · intro c hc
    simp at hc

theorem netlocSplit_snd_subset (u : Str) : (netlocSplit u).2 ⊆ u := by
  unfold netlocSplit
  split
  · intro c hc
    exact List.drop_subset 2 u (mem_of_mem_dropWhile hc)
  · exact fun c hc => hc

theorem netlocSplit_snd_shape {u : Str} (h : u.take 2 = ['/', '/']) :
    (netlocSplit u).2 = [] ∨
      ∃ c t, (netlocSplit u).2 = c :: t ∧ isNetDelim c = true := by
  unfold netlocSplit
  rw [if_pos h]
  by_cases hall : ∀ c ∈ u.drop 2, (!isNetDelim c) = true
  · left
    exact dropWhile_eq_nil_of_all hall
  · right
    obtain ⟨c, t, hct, hc⟩ := dropWhile_head_fails hall
    exact ⟨c, t, hct, by rwa [Bool.not_eq_false'] at hc⟩

theorem splitFirst_no_sep {sep : Char} {u : Str} (h : ∀ c ∈ u, c ≠ sep) :
    splitFirst sep u = (u, []) := by
  unfold splitFirst
  have hall : ∀ c ∈ u, (c != sep) = true := by
    intro c hc
    simp only [bne_iff_ne, ne_eq, decide_eq_true_eq]
    exact h c hc
  rw [takeWhile_eq_self_of_all hall, dropWhile_eq_nil_of_all hall]
  rfl

theorem splitFirst_append_sep {sep : Char} {r x : Str}
    (h : ∀ c ∈ r, c ≠ sep) : splitFirst sep (r ++ sep :: x) = (r, x) := by
  unfold splitFirst
  have hall : ∀ c ∈ r, (c != sep) = true := by
    intro c hc
    simp only [bne_iff_ne, ne_eq, decide_eq_true_eq]
    exact h c hc
  rw [takeWhile_append_all hall, dropWhile_append_all hall,
    List.takeWhile_cons, List.dropWhile_cons]
  simp

theorem splitFirst_fst_subset (sep : Char) (u : Str) :
    (splitFirst sep u).1 ⊆ u := by
  unfold splitFirst
  exact fun c hc => mem_of_mem_takeWhile hc

theorem splitFirst_fst_ne (sep : Char) (u : Str) :
    ∀ c ∈ (splitFirst sep u).1, c ≠ sep := by
  unfold splitFirst
  intro c hc
  have := pred_of_mem_takeWhile hc
  simpa [bne_iff_ne] using this

theorem removeUnsafe_no_unsafe (u : Str) :
    ∀ c ∈ removeUnsafe u, unsafeChar c = false := by
  intro c hc
  unfold removeUnsafe at hc
  rw [List.mem_filter, Bool.not_eq_true'] at hc
  exact hc.2

/-! Claim C5: lemmas about `_splitparams` and the last path segment. -/

theorem contains_false {l : Str} {a : Char} (h : ∀ c ∈ l, c ≠ a) :
    l.contains a = false := by
  cases hc : l.contains a
  · rfl
  · exact absurd rfl (h a (List.mem_of_elem_eq_true hc))

theorem not_mem_of_contains_false {l : Str} {a : Char}
    (h : l.contains a = false) : a ∉ l := by
  intro hm
  have h' : List.elem a l = false := h
  rw [List.elem_eq_true_of_mem hm] at h'
  exact Bool.false_ne_true h'.symm

theorem lastSeg_no_slash_mem (p : Str) : ∀ c ∈ lastSeg p, c ≠ '/' := by
  intro c hc
  unfold lastSeg at hc
  rw [List.mem_reverse] at hc
  have := pred_of_mem_takeWhile hc
  simpa [bne_iff_ne] using this

theorem mem_lastSeg {p : Str} {c : Char} (h : c ∈ lastSeg p) : c ∈ p := by
  unfold lastSeg at h
  rw [List.mem_reverse] at h
  have := mem_of_mem_takeWhile h
  rwa [List.mem_reverse] at this

theorem lastSeg_of_no_slash {p : Str} (h : ∀ c ∈ p, c ≠ '/') :
    lastSeg p = p := by
  unfold lastSeg
  rw [takeWhile_eq_self_of_all, List.reverse_reverse]
  intro c hc
  rw [List.mem_reverse] at hc
  simpa [bne_iff_ne] using h c hc

theorem lastSeg_append_slash (pp x : Str) (hx : ∀ c ∈ x, c ≠ '/') :
    lastSeg (pp ++ '/' :: x) = x := by
  unfold lastSeg
  rw [show (pp ++ '/' :: x).reverse = x.reverse ++ '/' :: pp.reverse by simp]
  rw [takeWhile_append_all (fun c hc => by
    rw [List.mem_reverse] at hc
    simpa [bne_iff_ne] using hx c hc)]
  rw [List.takeWhile_cons]
  simp

theorem lastSeg_cons_slash (p : Str) : lastSeg ('/' :: p) = lastSeg p := by
  unfold lastSeg
  rw [show ('/' :: p).reverse = p.reverse ++ ['/'] by simp]
  by_cases hall : ∀ c ∈ p.reverse, (c != '/') = true
  · rw [takeWhile_append_all hall, takeWhile_eq_self_of_all hall]
    simp [List.takeWhile_cons]
  · rw [takeWhile_append_stop _ hall]

theorem lastSeg_decomp {p : Str} (h : p.contains '/' = true) :
    ∃ pp, p = pp ++ '/' :: lastSeg p ∧
      p.take (p.length - (lastSeg p).length) = pp ++ ['/'] := by
  have hmem : '/' ∈ p := List.mem_of_elem_eq_true h
  have hnall : ¬ ∀ c ∈ p.reverse, (c != '/') = true := by
    intro hall
    have := hall '/' (List.mem_reverse.mpr hmem)
    simp at this
  obtain ⟨c, t, hct, hc⟩ := dropWhile_head_fails hnall
  have hc' : c = '/' := by
    by_contra hne
    rw [bne_iff_ne.mpr hne] at hc
    exact Bool.false_ne_true hc.symm
  subst hc'
  have hsplit : p.reverse =
      p.reverse.takeWhile (fun c => c != '/') ++ '/' :: t := by
    conv_lhs => rw [← List.takeWhile_append_dropWhile
      (fun c => c != '/') p.reverse]
    rw [hct]
  refine ⟨t.reverse, ?_, ?_⟩
  · conv_lhs => rw [← List.reverse_reverse p]
    rw [hsplit]
    unfold lastSeg
    simp
  · have hp : p = (t.reverse ++ ['/']) ++ lastSeg p := by
      conv_lhs => rw [← List.reverse_reverse p]
      rw [hsplit]
      unfold lastSeg
      simp
    generalize hseg : lastSeg p = seg at hp ⊢
    have hlen : p.length - seg.length = (t.reverse ++ ['/']).length := by
      rw [hp]
      simp only [List.length_append]
      omega
    rw [hlen]
    conv_lhs => rw [hp]
    rw [List.take_left]

theorem splitparams_stable {p : Str} (hsf : ∀ c ∈ lastSeg p, c ≠ ';') :
    splitparams p = (p, []) := by
  unfold splitparams
  by_cases hcp : p.contains '/' = true
  · rw [if_pos hcp, if_neg (by rw [contains_false hsf]; exact Bool.false_ne_true)]
  · rw [if_neg hcp]
    have hnos : ∀ c ∈ p, c ≠ '/' := by
      intro c hc hceq
      subst hceq
      exact (not_mem_of_contains_false (by rwa [Bool.not_eq_true] at hcp)) hc
    have hls := lastSeg_of_no_slash hnos
    have hp_all : ∀ c ∈ p, (c != ';') = true := by
      intro c hc
      simp only [bne_iff_ne, ne_eq, decide_eq_true_eq]
      exact hsf c (by rw [hls]; exact hc)
    rw [takeWhile_eq_self_of_all hp_all, dropWhile_eq_nil_of_all hp_all]
    rfl

theorem splitparams_result_semiFree {p : Str} :
    ∀ c ∈ lastSeg (splitparams p).1, c ≠ ';' := by
  unfold splitparams
  by_cases hcp : p.contains '/' = true
  · rw [if_pos hcp]
    by_cases hsc : (lastSeg p).contains ';' = true
    · rw [if_pos hsc]
      obtain ⟨pp, hp, htake⟩ := lastSeg_decomp hcp
      dsimp only
      rw [htake]
      have hx : ∀ c ∈ (lastSeg p).takeWhile (fun c => c != ';'), c ≠ '/' :=
        fun c hc => lastSeg_no_slash_mem p c (mem_of_mem_takeWhile hc)
      rw [show pp ++ ['/'] ++ (lastSeg p).takeWhile (fun c => c != ';') =
        pp ++ '/' :: (lastSeg p).takeWhile (fun c => c != ';') by simp]
      rw [lastSeg_append_slash pp _ hx]
      intro c hc
      have := pred_of_mem_takeWhile hc
      simpa [bne_iff_ne] using this
    · rw [if_neg hsc]
      intro c hc hceq
      subst hceq
      exact (not_mem_of_contains_false (by rwa [Bool.not_eq_true] at hsc)) hc
  · rw [if_neg hcp]
    dsimp only
    have hnos : ∀ c ∈ p.takeWhile (fun c => c != ';'), c ≠ '/' := by
      intro c hc hceq
      subst hceq
      exact (not_mem_of_contains_false (by rwa [Bool.not_eq_true] at hcp))
        (mem_of_mem_takeWhile hc)
    rw [lastSeg_of_no_slash hnos]
    intro c hc
    have := pred_of_mem_takeWhile hc
    simpa [bne_iff_ne] using this

/-! Claim C5: reassembled URLs and their re-parse. -/

theorem removeUnsafe_eq_self {u : Str} (h : ∀ c ∈ u, unsafeChar c = false) :
    removeUnsafe u = u := by
  unfold removeUnsafe
  rw [List.filter_eq_self]
  intro c hc
  rw [h c hc]
  rfl

theorem semiFree_prepend {p : Str} (h : ∀ c ∈ lastSeg p, c ≠ ';') :
    ∀ c ∈ lastSeg (if p ≠ [] ∧ p.headD ' ' ≠ '/' then '/' :: p else p),
      c ≠ ';' := by
  split
  · rw [lastSeg_cons_slash]
    exact h
  · exact h

theorem urlunsplit_eval (s n p : Str) :
    urlunsplit s n p [] [] =
      (if s ≠ [] then
        s ++ ':' ::
          (if n ≠ [] ∨ (s ≠ [] ∧ uses_netloc.contains s = true ∧
              p.take 2 ≠ ['/', '/']) then
            ['/', '/'] ++ n ++ (if p ≠ [] ∧ p.headD ' ' ≠ '/' then '/' :: p else p)
          else p)
      else
        (if n ≠ [] ∨ (s ≠ [] ∧ uses_netloc.contains s = true ∧
            p.take 2 ≠ ['/', '/']) then
          ['/', '/'] ++ n ++ (if p ≠ [] ∧ p.headD ' ' ≠ '/' then '/' :: p else p)
        else p)) := by
  unfold urlunsplit
  dsimp only
  rw [if_neg (by simp : ¬ (([] : Str) ≠ [])), if_neg (by simp : ¬ (([] : Str) ≠ []))]

theorem urlsplit_schemeless (nfkcOk : Str → Bool) (u n₂ p₂ : Str)
    (hscheme : schemeSplit u = ([], u))
    (hsafe : ∀ c ∈ u, unsafeChar c = false)
    (hnl : netlocSplit u = (n₂, p₂))
    (hp₂ : ∀ c ∈ p₂, c ≠ '?' ∧ c ≠ '#')
    (hipv : badIpv6 n₂ = false) (hchk : checknetloc nfkcOk n₂ = true) :
    urlsplit nfkcOk u = some ⟨[], n₂, p₂, [], []⟩ := by
  unfold urlsplit
  dsimp only
  rw [removeUnsafe_eq_self hsafe, hscheme]
  dsimp only
  rw [hnl]
  dsimp only
  rw [hipv, if_neg Bool.false_ne_true,
    splitFirst_no_sep (fun c hc => (hp₂ c hc).2)]
  dsimp only
  rw [splitFirst_no_sep (fun c hc => (hp₂ c hc).1), hchk, if_pos rfl]

theorem urlsplit_with_scheme (nfkcOk : Str → Bool) (s r n₂ p₂ : Str)
    (hall : s.all isSchemeChar = true) (hhead : (s.headD ' ').isAlpha = true)
    (hlow : s.map Char.toLower = s)
    (hsafe : ∀ c ∈ s ++ ':' :: r, unsafeChar c = false)
    (hnl : netlocSplit r = (n₂, p₂))
    (hp₂ : ∀ c ∈ p₂, c ≠ '?' ∧ c ≠ '#')
    (hipv : badIpv6 n₂ = false) (hchk : checknetloc nfkcOk n₂ = true) :
    urlsplit nfkcOk (s ++ ':' :: r) = some ⟨s, n₂, p₂, [], []⟩ := by
  unfold urlsplit
  dsimp only
  rw [removeUnsafe_eq_self hsafe, schemeSplit_of_scheme s r hall hhead, hlow]
  dsimp only
  rw [hnl]
  dsimp only
  rw [hipv, if_neg Bool.false_ne_true,
    splitFirst_no_sep (fun c hc => (hp₂ c hc).2)]
  dsimp only
  rw [splitFirst_no_sep (fun c hc => (hp₂ c hc).1), hchk, if_pos rfl]

theorem urlparse_of_urlsplit {nfkcOk : Str → Bool} {u s₀ n₀ p₀ : Str}
    (hsplit : urlsplit nfkcOk u = some ⟨s₀, n₀, p₀, [], []⟩)
    (hsemi : uses_params.contains s₀ = true → ∀ c ∈ lastSeg p₀, c ≠ ';') :
    urlparse nfkcOk u = some ⟨s₀, n₀, p₀, [], [], []⟩ := by
  unfold urlparse
  rw [hsplit]
  dsimp only [Option.map_some']
  by_cases hg : uses_params.contains s₀ = true ∧ p₀.contains ';' = true
  · rw [if_pos hg, splitparams_stable (hsemi hg.1)]
  · rw [if_neg hg]

theorem normalize_of_urlparse {nfkcOk : Str → Bool} {u s₀ n₀ p₀ : Str}
    (hparse : urlparse nfkcOk u = some ⟨s₀, n₀, p₀, [], [], []⟩) :
    normalize_url nfkcOk u = some (urlunsplit s₀ n₀ p₀ [] []) := by
  unfold normalize_url urlunparse
  rw [hparse]
  dsimp only [Option.map_some']
  rw [if_neg (by simp : ¬ (([] : Str) ≠ []))]

/-- Core of the amended idempotence claim: re-normalizing a URL rebuilt by
`urlunsplit` from well-formed components returns it unchanged, provided the
components do not exhibit the empty-netloc/`//`-path degeneracy. -/
theorem normalize_unsplit_fixed (nfkcOk : Str → Bool) (s n p : Str)
    (hs : s = [] ∨ (s.all isSchemeChar = true ∧ (s.headD ' ').isAlpha = true ∧
      s.map Char.toLower = s))
    (hnd : ∀ c ∈ n, isNetDelim c = false)
    (hnu : ∀ c ∈ n, unsafeChar c = false)
    (hp : ∀ c ∈ p, c ≠ '?' ∧ c ≠ '#' ∧ unsafeChar c = false)
    (hipv : badIpv6 n = false)
    (hchk : checknetloc nfkcOk n = true)
    (hsf : uses_params.contains s = true → ∀ c ∈ lastSeg p, c ≠ ';')
    (hps : s = [] → schemeSplit p = ([], p))
    (hH : ¬ (n = [] ∧ p.take 2 = ['/', '/'])) :
    normalize_url nfkcOk (urlunsplit s n p [] []) =
      some (urlunsplit s n p [] []) := by
  rw [urlunsplit_eval]
  set p' := if p ≠ [] ∧ p.headD ' ' ≠ '/' then '/' :: p else p with hpPrimeDef
  have hp'_chars : ∀ c ∈ p', c ≠ '?' ∧ c ≠ '#' ∧ unsafeChar c = false := by
    rw [hpPrimeDef]
    split
    · intro c hc
      rcases List.mem_cons.mp hc with rfl | hc
      · exact ⟨by decide, by decide, rfl⟩
      · exact hp c hc
    · exact hp
  have hp'_shape : p' = [] ∨ ∃ t, p' = '/' :: t := by
    rw [hpPrimeDef]
    split
    next h => exact Or.inr ⟨p, rfl⟩
    next h =>
      push_neg at h
      cases hpn : p with
      | nil => exact Or.inl rfl
      | cons c t =>
        right
        have hc : c = '/' := by
          have := h (by rw [hpn]; simp)
          rw [hpn] at this
          simpa using this
        exact ⟨t, by rw [hc]⟩
  have hp'_nl_shape : p' = [] ∨ ∃ c t, p' = c :: t ∧ isNetDelim c = true := by
    rcases hp'_shape with h | ⟨t, h⟩
    · exact Or.inl h
    · exact Or.inr ⟨'/', t, h, rfl⟩
  have hp'_noprep : ¬ (p' ≠ [] ∧ p'.headD ' ' ≠ '/') := by
    rcases hp'_shape with h | ⟨t, h⟩
    · rw [h]; simp
    · rw [h]; simp
  have hsemi' : uses_params.contains s = true → ∀ c ∈ lastSeg p', c ≠ ';' := by
    intro hu
    rw [hpPrimeDef]
    exact semiFree_prepend (hsf hu)
  have hp'_qf : ∀ c ∈ p', c ≠ '?' ∧ c ≠ '#' :=
    fun c hc => ⟨(hp'_chars c hc).1, (hp'_chars c hc).2.1⟩
  have hsafe_body : ∀ c ∈ ['/', '/'] ++ n ++ p', unsafeChar c = false := by
    intro c hc
    rcases List.mem_append.mp hc with hc | hc
    · rcases List.mem_append.mp hc with hc | hc
      · have : c = '/' := by simpa using (by simpa using hc : c = '/' ∨ c = '/').elim id id
        rw [this]
        rfl
      · exact hnu c hc
    · exact (hp'_chars c hc).2.2
  by_cases hsn : s = []
  · subst hsn
    rw [if_neg (by simp)]
    by_cases hAn : n ≠ []
    · rw [if_pos (Or.inl hAn)]
      have hsplitv : urlsplit nfkcOk (['/', '/'] ++ n ++ p') =
          some ⟨[], n, p', [], []⟩ :=
        urlsplit_schemeless nfkcOk _ n p'
          (schemeSplit_none_of_head _ (by rfl))
          hsafe_body
          (netlocSplit_of_netloc n p' hnd hp'_nl_shape)
          hp'_qf hipv hchk
      rw [normalize_of_urlparse (urlparse_of_urlsplit hsplitv hsemi')]
      congr 1
      rw [urlunsplit_eval, if_neg (by simp), if_pos (Or.inl hAn), if_neg hp'_noprep]
    · push_neg at hAn
      have hcond : ¬ (n ≠ [] ∨ (([] : Str) ≠ [] ∧
          uses_netloc.contains ([] : Str) = true ∧ p.take 2 ≠ ['/', '/'])) := by
        rintro (h | ⟨h, _, _⟩)
        · exact h hAn
        · exact h rfl
      rw [if_neg hcond]
      have htake : p.take 2 ≠ ['/', '/'] := fun h => hH ⟨hAn, h⟩
      subst hAn
      have hsplitv : urlsplit nfkcOk p = some ⟨[], [], p, [], []⟩ :=
        urlsplit_schemeless nfkcOk p [] p (hps rfl)
          (fun c hc => (hp c hc).2.2)
          (netlocSplit_none htake)
          (fun c hc => ⟨(hp c hc).1, (hp c hc).2.1⟩) hipv hchk
      rw [normalize_of_urlparse (urlparse_of_urlsplit hsplitv hsf)]
      congr 1
  · rw [if_pos hsn]
    obtain ⟨hall, hhead, hlow⟩ := hs.resolve_left hsn
    have hsafe_s : ∀ c ∈ s, unsafeChar c = false := fun c hc =>
      (schemeChar_facts (List.all_eq_true.mp hall c hc)).2.2.2.2.1
    by_cases hA : n ≠ [] ∨ (s ≠ [] ∧ uses_netloc.contains s = true ∧
        p.take 2 ≠ ['/', '/'])
    · rw [if_pos hA]
      have hsafe_v : ∀ c ∈ s ++ ':' :: (['/', '/'] ++ n ++ p'),
          unsafeChar c = false := by
        intro c hc
        rcases List.mem_append.mp hc with hc | hc
        · exact hsafe_s c hc
        · rcases List.mem_cons.mp hc with rfl | hc
          · rfl
          · exact hsafe_body c hc
      have hsplitv : urlsplit nfkcOk (s ++ ':' :: (['/', '/'] ++ n ++ p')) =
          some ⟨s, n, p', [], []⟩ :=
        urlsplit_with_scheme nfkcOk s _ n p' hall hhead hlow hsafe_v
          (netlocSplit_of_netloc n p' hnd hp'_nl_shape) hp'_qf hipv hchk
      rw [normalize_of_urlparse (urlparse_of_urlsplit hsplitv hsemi')]
      congr 1
      rw [urlunsplit_eval, if_pos hsn]
      have hA₂ : n ≠ [] ∨ (s ≠ [] ∧ uses_netloc.contains s = true ∧
          p'.take 2 ≠ ['/', '/']) := by
        rcases hA with hAn | ⟨_, huse, htk⟩
        · exact Or.inl hAn
        · right
          refine ⟨hsn, huse, ?_⟩
          rw [hpPrimeDef]
          split
          next hcond =>
            intro hctr
            have hhd : p.headD ' ' = '/' := by
              cases p with
              | nil => simp at hctr
              | cons c t =>
                have h1 : ('/' :: c :: t).take 2 = '/' :: [c] := by
                  simp [List.take]
                rw [h1] at hctr
                injection hctr with h2 h3
                injection h3 with h4 h5
            exact hcond.2 hhd
          next hcond => exact htk
      rw [if_pos hA₂, if_neg hp'_noprep]
    · rw [if_neg hA]
      have hn_nil : n = [] := by
        by_contra h
        exact hA (Or.inl h)
      have htake : p.take 2 ≠ ['/', '/'] := fun h => hH ⟨hn_nil, h⟩
      have huse : uses_netloc.contains s = false := by
        cases hu : uses_netloc.contains s
        · rfl
        · exact absurd (Or.inr ⟨hsn, hu, htake⟩) hA
      subst hn_nil
      have hsafe_v : ∀ c ∈ s ++ ':' :: p, unsafeChar c = false := by
        intro c hc
        rcases List.mem_append.mp hc with hc | hc
        · exact hsafe_s c hc
        · rcases List.mem_cons.mp hc with rfl | hc
          · rfl
          · exact (hp c hc).2.2
      have hsplitv : urlsplit nfkcOk (s ++ ':' :: p) = some ⟨s, [], p, [], []⟩ :=
        urlsplit_with_scheme nfkcOk s p [] p hall hhead hlow hsafe_v
          (netlocSplit_none htake)
          (fun c hc => ⟨(hp c hc).1, (hp c hc).2.1⟩) hipv hchk
      rw [normalize_of_urlparse (urlparse_of_urlsplit hsplitv hsf)]
      congr 1
      rw [urlunsplit_eval, if_pos hsn]
      rw [if_neg (by
        rintro (h | ⟨_, hu, _⟩)
        · exact h rfl
        · rw [huse] at hu
          exact Bool.false_ne_true hu)]

theorem splitparams_fst_prefix (p : Str) : ∃ r, (splitparams p).1 ++ r = p := by
  unfold splitparams
  by_cases hcp : p.contains '/' = true
  · rw [if_pos hcp]
    by_cases hsc : (lastSeg p).contains ';' = true
    · rw [if_pos hsc]
      obtain ⟨pp, hp, htake⟩ := lastSeg_decomp hcp
      dsimp only
      refine ⟨(lastSeg p).dropWhile (fun c => c != ';'), ?_⟩
      rw [htake, List.append_assoc, List.append_assoc,
        List.takeWhile_append_dropWhile]
      conv_rhs => rw [hp]
      simp
    · rw [if_neg hsc]
      exact ⟨[], by simp⟩
  · rw [if_neg hcp]
    exact ⟨p.dropWhile (fun c => c != ';'), List.takeWhile_append_dropWhile _ p⟩

theorem mem_splitparams_fst {p : Str} {c : Char}
    (h : c ∈ (splitparams p).1) : c ∈ p := by
  obtain ⟨r, hr⟩ := splitparams_fst_prefix p
  rw [← hr]
  exact List.mem_append_left r h

theorem headD_of_prefix {a b : Str} (h : ∃ r, a ++ r = b) (hne : a ≠ []) :
    b.headD ' ' = a.headD ' ' := by
  obtain ⟨r, rfl⟩ := h
  cases a with
  | nil => exact absurd rfl hne
  | cons c t => rfl

theorem takeWhile_prefix_decomp (p : Char → Bool) (l : Str) :
    ∃ r, l.takeWhile p ++ r = l :=
  ⟨l.dropWhile p, List.takeWhile_append_dropWhile p l⟩

theorem splitFirst_cons_sep (sep : Char) (t : Str) :
    splitFirst sep (sep :: t) = ([], t) := by
  unfold splitFirst
  rw [List.takeWhile_cons, List.dropWhile_cons]
  simp

theorem splitFirst_cons_ne {sep c : Char} (t : Str) (h : c ≠ sep) :
    (splitFirst sep (c :: t)).1 = c :: (t.takeWhile (fun x => x != sep)) := by
  unfold splitFirst
  rw [List.takeWhile_cons, bne_iff_ne.mpr h]
  simp

/-- Invariants of the components of a successful `urlparse`: exactly the
hypotheses needed for `normalize_unsplit_fixed`. -/
theorem urlparse_inv (nfkcOk : Str → Bool) (u : Str) (pr : ParseResult)
    (h : urlparse nfkcOk u = some pr) :
    (pr.scheme = [] ∨ (pr.scheme.all isSchemeChar = true ∧
      (pr.scheme.headD ' ').isAlpha = true ∧
      pr.scheme.map Char.toLower = pr.scheme)) ∧
    (∀ c ∈ pr.netloc, isNetDelim c = false) ∧
    (∀ c ∈ pr.netloc, unsafeChar c = false) ∧
    (∀ c ∈ pr.path, c ≠ '?' ∧ c ≠ '#' ∧ unsafeChar c = false) ∧
    badIpv6 pr.netloc = false ∧
    checknetloc nfkcOk pr.netloc = true ∧
    (uses_params.contains pr.scheme = true →
      ∀ c ∈ lastSeg pr.path, c ≠ ';') ∧
    (pr.scheme = [] → schemeSplit pr.path = ([], pr.path)) := by
  unfold urlparse at h
  rw [Option.map_eq_some'] at h
  obtain ⟨r, hsplit, hfr⟩ := h
  unfold urlsplit at hsplit
  dsimp only at hsplit
  set u1 := removeUnsafe u with hu1
  by_cases hipv : badIpv6 (netlocSplit (schemeSplit u1).2).1 = true
  · rw [if_pos hipv] at hsplit
    exact absurd hsplit (by simp)
  · rw [if_neg hipv] at hsplit
    by_cases hchk :
        checknetloc nfkcOk (netlocSplit (schemeSplit u1).2).1 = true
    · rw [if_pos hchk] at hsplit
      rw [Option.some.injEq] at hsplit
      subst hsplit
      -- name the pipeline stages
      set s0 := (schemeSplit u1).1 with hs0
      set rest0 := (schemeSplit u1).2 with hrest0
      set n0 := (netlocSplit rest0).1 with hn0
      set rest1 := (netlocSplit rest0).2 with hrest1
      set f1 := (splitFirst '#' rest1).1 with hf1
      set p0 := (splitFirst '?' f1).1 with hp0
      -- the parse result fields
      have hp0_chars : ∀ c ∈ p0, c ≠ '?' ∧ c ≠ '#' ∧ unsafeChar c = false := by
        intro c hc
        refine ⟨splitFirst_fst_ne '?' f1 c hc, ?_, ?_⟩
        · exact splitFirst_fst_ne '#' rest1 c (splitFirst_fst_subset '?' f1 hc)
        · exact removeUnsafe_no_unsafe u c
            (schemeSplit_snd_subset u1
              (netlocSplit_snd_subset rest0
                (splitFirst_fst_subset '#' rest1
                  (splitFirst_fst_subset '?' f1 hc))))
      set q0 := (splitFirst '?' f1).2 with hq0
      set g0 := (splitFirst '#' rest1).2 with hg0
      have hfr' : (if uses_params.contains s0 = true ∧ p0.contains ';' = true
          then (⟨s0, n0, (splitparams p0).1, (splitparams p0).2, q0, g0⟩ :
            ParseResult)
          else ⟨s0, n0, p0, [], q0, g0⟩) = pr := hfr
      have hscheme_eq : pr.scheme = s0 := by
        rw [← hfr']
        split <;> rfl
      have hnetloc_eq : pr.netloc = n0 := by
        rw [← hfr']
        split <;> rfl
      have hpath : pr.path = (if uses_params.contains s0 = true ∧
          p0.contains ';' = true then (splitparams p0).1 else p0) := by
        rw [← hfr']
        split <;> rfl
      have hpath_prefix : ∃ r, pr.path ++ r = p0 := by
        rw [hpath]
        split
        · exact splitparams_fst_prefix p0
        · exact ⟨[], by simp⟩
      refine ⟨?_, ?_, ?_, ?_, ?_, ?_, ?_, ?_⟩
      · rw [hscheme_eq, hs0]
        exact schemeSplit_fst_props u1
      · rw [hnetloc_eq, hn0]
        exact netlocSplit_fst_no_delim rest0
      · rw [hnetloc_eq]
        intro c hc
        exact removeUnsafe_no_unsafe u c
          (schemeSplit_snd_subset u1 (netlocSplit_fst_subset rest0 hc))
      · intro c hc
        obtain ⟨r2, hr2⟩ := hpath_prefix
        exact hp0_chars c (by rw [← hr2]; exact List.mem_append_left r2 hc)
      · rw [hnetloc_eq]
        rwa [Bool.not_eq_true] at hipv
      · rw [hnetloc_eq]
        exact hchk
      · rw [hscheme_eq, hpath]
        intro hu
        split
        next hg => exact splitparams_result_semiFree
        next hg =>
          have hnos : p0.contains ';' = false := by
            cases hcs : p0.contains ';'
            · rfl
            · exact absurd ⟨hu, hcs⟩ hg
          intro c hc hceq
          subst hceq
          exact (not_mem_of_contains_false hnos) (mem_lastSeg hc)
      · intro hsnil
        rw [hscheme_eq] at hsnil
        have hss : schemeSplit u1 = ([], u1) := schemeSplit_fst_nil (by rw [← hs0]; exact hsnil)
        have hrest0_eq : rest0 = u1 := by
          rw [hrest0, hss]
        by_cases htk : u1.take 2 = ['/', '/']
        · -- netloc was split off: the path is empty or starts with '/'
          have hshape : (netlocSplit rest0).2 = [] ∨
              ∃ c t, (netlocSplit rest0).2 = c :: t ∧ isNetDelim c = true :=
            netlocSplit_snd_shape (by rwa [hrest0_eq])
          have hp0_shape : p0 = [] ∨ p0.headD ' ' = '/' := by
            rcases hshape with hnil | ⟨c, t, hct, hcd⟩
            · left
              rw [← hrest1] at hnil
              rw [hp0, hf1, hnil]
              rfl
            · rw [← hrest1] at hct
              by_cases hcq : c = '#'
              · left
                subst hcq
                rw [hp0, hf1, hct, splitFirst_cons_sep]
                rfl
              · have hf1_eq : f1 = c :: t.takeWhile (fun x => x != '#') := by
                  rw [hf1, hct]
                  exact splitFirst_cons_ne t hcq
                by_cases hcq2 : c = '?'
                · left
                  subst hcq2
                  rw [hp0, hf1_eq, splitFirst_cons_sep]
                · have hc_slash : c = '/' := by
                    rw [isNetDelim_iff] at hcd
                    rw [char_eq_lit, show ('/').toNat = 47 from rfl]
                    have h63 : c.toNat ≠ 63 := by
                      intro hx
                      exact hcq2 (by rw [char_eq_lit, hx]; rfl)
                    have h35 : c.toNat ≠ 35 := by
                      intro hx
                      exact hcq (by rw [char_eq_lit, hx]; rfl)
                    omega
                  right
                  subst hc_slash
                  rw [hp0, hf1_eq,
                    splitFirst_cons_ne _ (by decide : ('/' : Char) ≠ '?')]
                  rfl
          have hfinal_shape : pr.path = [] ∨ pr.path.headD ' ' = '/' := by
            obtain ⟨r2, hr2⟩ := hpath_prefix
            rcases hp0_shape with hnil | hhd
            · left
              rw [hnil] at hr2
              exact List.append_eq_nil.mp hr2 |>.1
            · cases hppath : pr.path with
              | nil => exact Or.inl rfl
              | cons c t =>
                right
                rw [← hppath]
                rw [← headD_of_prefix ⟨r2, hr2⟩ (by rw [hppath]; simp)]
                exact hhd
          rcases hfinal_shape with hnil | hhd
          · rw [hnil]
            exact schemeSplit_none_of_head [] (by rfl)
          · exact schemeSplit_none_of_head pr.path (by rw [hhd]; rfl)
        · -- no netloc: the path is a prefix of `u1`, on which the scheme
          -- check already failed
          have hnl_eq : netlocSplit rest0 = ([], rest0) :=
            netlocSplit_none (by rwa [hrest0_eq])
          have hrest1_eq : rest1 = u1 := by
            rw [hrest1, hnl_eq, hrest0_eq]
          have hp0' : p0 ++ f1.dropWhile (fun c => c != '?') = f1 := by
            rw [hp0]
            exact List.takeWhile_append_dropWhile _ f1
          have hf1' : f1 ++ rest1.dropWhile (fun c => c != '#') = rest1 := by
            rw [hf1]
            exact List.takeWhile_append_dropWhile _ rest1
          have hpre : ∃ r2, pr.path ++ r2 = u1 := by
            obtain ⟨r2, hr2⟩ := hpath_prefix
            refine ⟨r2 ++ f1.dropWhile (fun c => c != '?') ++
              rest1.dropWhile (fun c => c != '#'), ?_⟩
            calc pr.path ++ (r2 ++ f1.dropWhile (fun c => c != '?') ++
                rest1.dropWhile (fun c => c != '#'))
                = ((pr.path ++ r2) ++ f1.dropWhile (fun c => c != '?')) ++
                    rest1.dropWhile (fun c => c != '#') := by
                  simp [List.append_assoc]
              _ = (p0 ++ f1.dropWhile (fun c => c != '?')) ++
                    rest1.dropWhile (fun c => c != '#') := by rw [hr2]
              _ = f1 ++ rest1.dropWhile (fun c => c != '#') := by rw [hp0']
              _ = rest1 := hf1'
              _ = u1 := hrest1_eq
          obtain ⟨r2, hr2⟩ := hpre
          exact schemeSplit_prefix_fail hr2 hss
    · rw [if_neg hchk] at hsplit
      exact absurd hsplit (by simp)

/-! Claim C5: appending a query/fragment suffix does not disturb the
scheme, netloc and path stages of the parse. -/

theorem schemeSplit_append_eq (w x : Str)
    (hx : x = [] ∨ ∃ c t, x = c :: t ∧ (c = '?' ∨ c = '#')) :
    schemeSplit (w ++ x) = ((schemeSplit w).1, (schemeSplit w).2 ++ x) := by
  rcases hx with rfl | ⟨c, t, rfl, hc⟩
  · simp
  have hcs : isSchemeChar c = false := by
    rcases hc with rfl | rfl <;> rfl
  have hcc : c ≠ ':' := by
    rcases hc with rfl | rfl <;> decide
  by_cases hPw : ∀ a ∈ w, (a != ':') = true
  · have hw_fail : schemeSplit w = ([], w) := by
      unfold schemeSplit
      rw [if_neg]
      intro hg
      rw [takeWhile_eq_self_of_all hPw] at hg
      exact absurd hg.1 (by omega)
    rw [hw_fail]
    unfold schemeSplit
    rw [if_neg]
    intro hg
    have hcmem : c ∈ (w ++ c :: t).takeWhile (fun a => a != ':') := by
      rw [takeWhile_append_all hPw, List.takeWhile_cons, bne_iff_ne.mpr hcc]
      simp
    have := List.all_eq_true.mp hg.2.2.2 c hcmem
    rw [hcs] at this
    exact Bool.false_ne_true this
  · have hpre_eq : (w ++ c :: t).takeWhile (fun a => a != ':') =
        w.takeWhile (fun a => a != ':') := takeWhile_append_stop _ hPw
    have hlen : (w.takeWhile (fun a => a != ':')).length < w.length :=
      takeWhile_length_lt hPw
    have hw_ne : w ≠ [] := by
      intro h
      exact hPw (by rw [h]; simp)
    have hhead : (w ++ c :: t).headD ' ' = w.headD ' ' :=
      headD_of_prefix ⟨c :: t, rfl⟩ hw_ne
    by_cases hg : w.takeWhile (fun a => a != ':') ≠ [] ∧
        (w.headD ' ').isAlpha = true ∧
        (w.takeWhile (fun a => a != ':')).all isSchemeChar = true
    · unfold schemeSplit
      rw [hpre_eq, hhead]
      rw [if_pos ⟨by rw [List.length_append]; omega, hg.1, hg.2.1, hg.2.2⟩,
        if_pos ⟨hlen, hg.1, hg.2.1, hg.2.2⟩]
      refine Prod.ext rfl ?_
      dsimp only
      exact List.drop_append_of_le_length (by omega)
    · unfold schemeSplit
      rw [hpre_eq, hhead]
      rw [if_neg (fun hgg => hg ⟨hgg.2.1, hgg.2.2.1, hgg.2.2.2⟩),
        if_neg (fun hgg => hg ⟨hgg.2.1, hgg.2.2.1, hgg.2.2.2⟩)]

theorem netlocSplit_append_eq (w x : Str)
    (hx : x = [] ∨ ∃ c t, x = c :: t ∧ (c = '?' ∨ c = '#')) :
    netlocSplit (w ++ x) = ((netlocSplit w).1, (netlocSplit w).2 ++ x) := by
  rcases hx with rfl | ⟨c, t, rfl, hc⟩
  · simp
  have hcd : isNetDelim c = true := by
    rcases hc with rfl | rfl <;> rfl
  have hcns : c ≠ '/' := by
    rcases hc with rfl | rfl <;> decide
  by_cases htk : w.take 2 = ['/', '/']
  · have hwlen : 2 ≤ w.length := by
      by_contra hlt
      push_neg at hlt
      interval_cases hw : w.length
      · rw [List.length_eq_zero.mp hw] at htk
        simp at htk
      · obtain ⟨a, ha⟩ := List.length_eq_one.mp hw
        rw [ha] at htk
        simp at htk
    have htk2 : (w ++ c :: t).take 2 = ['/', '/'] := by
      rw [List.take_append_of_le_length hwlen, htk]
    unfold netlocSplit
    rw [if_pos htk, if_pos htk2,
      List.drop_append_of_le_length hwlen]
    by_cases hall : ∀ a ∈ w.drop 2, (!isNetDelim a) = true
    · rw [takeWhile_append_all hall, dropWhile_append_all hall,
        takeWhile_eq_self_of_all hall, dropWhile_eq_nil_of_all hall,
        List.takeWhile_cons, List.dropWhile_cons]
      rw [hcd]
      simp
    · rw [takeWhile_append_stop _ hall, dropWhile_append_stop _ hall]
  · have htk2 : (w ++ c :: t).take 2 ≠ ['/', '/'] := by
      cases w with
      | nil =>
        cases t with
        | nil =>
          intro h
          simp at h
        | cons d t' =>
          intro h
          rw [show (([] : Str) ++ c :: d :: t').take 2 = [c, d] from rfl] at h
          injection h with h1 h2
          exact hcns h1
      | cons a w' =>
        cases w' with
        | nil =>
          intro h
          rw [show ((a :: ([] : Str)) ++ c :: t).take 2 = [a, c] from rfl] at h
          injection h with h1 h2
          injection h2 with h3 h4
          exact hcns h3
        | cons b w'' =>
          intro h
          rw [show ((a :: b :: w'') ++ c :: t).take 2 = [a, b] from rfl] at h
          exact htk (by rw [show (a :: b :: w'').take 2 = [a, b] from rfl]; exact h)
    unfold netlocSplit
    rw [if_neg htk, if_neg htk2]

/-- The concrete characters contributed by an optional query string. -/
def qPart (q : Option Str) : Str :=
  match q with
  | none => []
  | some qs => '?' :: qs

/-- The concrete characters contributed by an optional fragment. -/
def fPart (f : Option Str) : Str :=
  match f with
  | none => []
  | some fs => '#' :: fs

/-- Attach an optional query string and an optional fragment to a base
link, the way they occur concretely in a URL. -/
def attachQF (b : Str) (q f : Option Str) : Str :=
  b ++ qPart q ++ fPart f

/-- Scheme, netloc and path of a split result (the only components
`normalize_url` uses). -/
def snp (r : SplitResult) : Str × Str × Str := (r.scheme, r.netloc, r.path)

/-- The fragment-then-query splitting stage of `urlsplit`, as a function
of the post-netloc remainder. -/
def pathStage (z : Str) : Str := (splitFirst '?' (splitFirst '#' z).1).1

theorem urlsplit_snp (nfkcOk : Str → Bool) (u : Str) :
    (urlsplit nfkcOk u).map snp =
      (if badIpv6 (netlocSplit (schemeSplit (removeUnsafe u)).2).1 = true
       then none
       else if checknetloc nfkcOk
           (netlocSplit (schemeSplit (removeUnsafe u)).2).1 = true then
         some ((schemeSplit (removeUnsafe u)).1,
           (netlocSplit (schemeSplit (removeUnsafe u)).2).1,
           pathStage (netlocSplit (schemeSplit (removeUnsafe u)).2).2)
       else none) := by
  unfold urlsplit pathStage
  dsimp only
  split
  · rfl
  · split
    · rfl
    · rfl

theorem pathStage_no_qf {z : Str} (hz : ∀ c ∈ z, c ≠ '?' ∧ c ≠ '#') :
    pathStage z = z := by
  unfold pathStage
  rw [splitFirst_no_sep (fun c hc => (hz c hc).2)]
  dsimp only
  rw [splitFirst_no_sep (fun c hc => (hz c hc).1)]

theorem pathStage_append {r x : Str} (hr : ∀ c ∈ r, c ≠ '?' ∧ c ≠ '#')
    (hx : (∃ a, x = '?' :: a ∧ '#' ∉ a) ∨ (∃ a, x = '#' :: a) ∨
      (∃ a c₂, x = '?' :: a ++ '#' :: c₂ ∧ '#' ∉ a)) :
    pathStage (r ++ x) = r := by
  unfold pathStage
  rcases hx with ⟨a, rfl, ha⟩ | ⟨a, rfl⟩ | ⟨a, c₂, rfl, ha⟩
  · have hnof : ∀ c ∈ r ++ '?' :: a, c ≠ '#' := by
      intro c hc
      rcases List.mem_append.mp hc with hc | hc
      · exact (hr c hc).2
      · rcases List.mem_cons.mp hc with rfl | hc
        · decide
        · exact fun hceq => ha (hceq ▸ hc)
    have h1 : splitFirst '#' (r ++ '?' :: a) = (r ++ '?' :: a, []) :=
      splitFirst_no_sep hnof
    rw [h1]
    dsimp only
    rw [splitFirst_append_sep (fun c hc => (hr c hc).1)]
  · rw [splitFirst_append_sep (fun c hc => (hr c hc).2)]
    dsimp only
    rw [splitFirst_no_sep (fun c hc => (hr c hc).1)]
  · rw [show r ++ ('?' :: a ++ '#' :: c₂) = (r ++ '?' :: a) ++ '#' :: c₂ by
      simp]
    have hnof : ∀ c ∈ r ++ '?' :: a, c ≠ '#' := by
      intro c hc
      rcases List.mem_append.mp hc with hc | hc
      · exact (hr c hc).2
      · rcases List.mem_cons.mp hc with rfl | hc
        · decide
        · exact fun hceq => ha (hceq ▸ hc)
    have h1 : splitFirst '#' ((r ++ '?' :: a) ++ '#' :: c₂) =
        (r ++ '?' :: a, c₂) := splitFirst_append_sep hnof
    rw [h1]
    dsimp only
    rw [splitFirst_append_sep (fun c hc => (hr c hc).1)]

/-- Appending a query and/or fragment suffix leaves the scheme, netloc and
path of `urlsplit` unchanged (and preserves whether parsing raises). -/
theorem urlsplit_attach (nfkcOk : Str → Bool) (b : Str) (q f : Option Str)
    (hbq : '?' ∉ b) (hbf : '#' ∉ b)
    (hq : ∀ qs, q = some qs → '#' ∉ qs) :
    (urlsplit nfkcOk (attachQF b q f)).map snp =
      (urlsplit nfkcOk b).map snp := by
  by_cases htriv : q = none ∧ f = none
  · obtain ⟨rfl, rfl⟩ := htriv
    unfold attachQF qPart fPart
    simp
  -- the raw suffix
  have hdecomp : attachQF b q f = b ++ (qPart q ++ fPart f) := by
    unfold attachQF
    rw [List.append_assoc]
  rw [hdecomp]
  rw [urlsplit_snp, urlsplit_snp]
  have hfilterb := removeUnsafe_no_unsafe b
  -- filtered suffix and its shape
  have hremove : removeUnsafe (b ++ (qPart q ++ fPart f)) =
      removeUnsafe b ++ removeUnsafe (qPart q ++ fPart f) := by
    unfold removeUnsafe
    rw [List.filter_append]
  set w := removeUnsafe b with hw
  have hwq : '?' ∉ w := by
    intro hmem
    exact hbq (List.mem_of_mem_filter hmem)
  have hwf : '#' ∉ w := by
    intro hmem
    exact hbf (List.mem_of_mem_filter hmem)
  rw [hremove]
  set x := removeUnsafe (qPart q ++ fPart f) with hx
  have hxshape : (∃ a, x = '?' :: a ∧ '#' ∉ a) ∨ (∃ a, x = '#' :: a) ∨
      (∃ a c₂, x = '?' :: a ++ '#' :: c₂ ∧ '#' ∉ a) := by
    cases hqc : q with
    | none =>
      cases hfc : f with
      | none => exact absurd ⟨hqc, hfc⟩ htriv
      | some fs =>
        right; left
        refine ⟨removeUnsafe fs, ?_⟩
        rw [hx, hqc, hfc]
        unfold qPart fPart removeUnsafe
        simp [List.filter_cons, unsafeChar]
    | some qs =>
      have hqs : '#' ∉ removeUnsafe qs := by
        intro hmem
        exact hq qs hqc (List.mem_of_mem_filter hmem)
      cases hfc : f with
      | none =>
        left
        refine ⟨removeUnsafe qs, ?_, hqs⟩
        rw [hx, hqc, hfc]
        unfold qPart fPart removeUnsafe
        simp [List.filter_cons, unsafeChar]
      | some fs =>
        right; right
        refine ⟨removeUnsafe qs, removeUnsafe fs, ?_, hqs⟩
        rw [hx, hqc, hfc]
        unfold qPart fPart removeUnsafe
        simp [List.filter_cons, unsafeChar]
  have hxcons : x = [] ∨ ∃ c t, x = c :: t ∧ (c = '?' ∨ c = '#') := by
    rcases hxshape with ⟨a, hxa, _⟩ | ⟨a, hxa⟩ | ⟨a, c₂, hxa, _⟩
    · exact Or.inr ⟨'?', a, hxa, Or.inl rfl⟩
    · exact Or.inr ⟨'#', a, hxa, Or.inr rfl⟩
    · exact Or.inr ⟨'?', a ++ '#' :: c₂, by rw [hxa]; rfl, Or.inl rfl⟩
  rw [schemeSplit_append_eq w x hxcons]
  dsimp only
  rw [netlocSplit_append_eq (schemeSplit w).2 x hxcons]
  dsimp only
  have hrqf : ∀ c ∈ (netlocSplit (schemeSplit w).2).2, c ≠ '?' ∧ c ≠ '#' := by
    intro c hc
    have hcw : c ∈ w :=
      schemeSplit_snd_subset w (netlocSplit_snd_subset (schemeSplit w).2 hc)
    exact ⟨fun h => hwq (h ▸ hcw), fun h => hwf (h ▸ hcw)⟩
  rw [pathStage_append hrqf hxshape, pathStage_no_qf hrqf]

/-- What `normalize_url` computes from the scheme/netloc/path triple of a
successful `urlsplit`. -/
def normalizeCore (t : Str × Str × Str) : Str :=
  if uses_params.contains t.1 = true ∧ t.2.2.contains ';' = true then
    urlunparse t.1 t.2.1 (splitparams t.2.2).1 [] [] []
  else urlunparse t.1 t.2.1 t.2.2 [] [] []

theorem normalize_eq_core (nfkcOk : Str → Bool) (u : Str) :
    normalize_url nfkcOk u = ((urlsplit nfkcOk u).map snp).map normalizeCore := by
  unfold normalize_url urlparse
  rw [Option.map_map, Option.map_map]
  cases hres : urlsplit nfkcOk u with
  | none => rfl
  | some r =>
    simp only [Option.map_some', Function.comp]
    unfold normalizeCore snp
    dsimp only
    split
    next h => rfl
    next h => rfl

/-- Attaching any query and/or fragment suffix to a base link does not
change its normalized form. -/
theorem normalize_attach (nfkcOk : Str → Bool) (b : Str) (q f : Option Str)
    (hbq : '?' ∉ b) (hbf : '#' ∉ b)
    (hq : ∀ qs, q = some qs → '#' ∉ qs) :
    normalize_url nfkcOk (attachQF b q f) = normalize_url nfkcOk b := by
  rw [normalize_eq_core, normalize_eq_core,
    urlsplit_attach nfkcOk b q f hbq hbf hq]

/-- Claim C5 (corrected): the query/fragment half of the claim holds — any
two links built from the same query-free, fragment-free base by attaching
query strings and/or fragments normalize identically — and idempotence
holds for every link whose parse does not combine an empty netloc with a
path starting in `//`; the unrestricted idempotence stated by the claim is
false (see the counterexample: `urlunparse` collapses a leading `////` of
the path, so each normalization pass of `http://////foo` strips slashes). -/
theorem C5_normalize_url_properties :
    (∀ (nfkcOk : Str → Bool) (u v : Str) (pr : ParseResult),
      urlparse nfkcOk u = some pr →
      (pr.netloc = [] → pr.path.take 2 ≠ ['/', '/']) →
      normalize_url nfkcOk u = some v →
      normalize_url nfkcOk v = some v) ∧
    (∀ (nfkcOk : Str → Bool) (b : Str) (q₁ f₁ q₂ f₂ : Option Str),
      '?' ∉ b → '#' ∉ b →
      (∀ qs, q₁ = some qs → '#' ∉ qs) →
      (∀ qs, q₂ = some qs → '#' ∉ qs) →
      normalize_url nfkcOk (attachQF b q₁ f₁) =
        normalize_url nfkcOk (attachQF b q₂ f₂)) := by
  constructor
  · intro nfkcOk u v pr hparse hcond hnorm
    obtain ⟨hs, hnd, hnu, hp, hipv, hchk, hsf, hps⟩ :=
      urlparse_inv nfkcOk u pr hparse
    have hv : v = urlunsplit pr.scheme pr.netloc pr.path [] [] := by
      unfold normalize_url at hnorm
      rw [hparse] at hnorm
      simp only [Option.map_some', Option.some.injEq] at hnorm
      rw [← hnorm]
      unfold urlunparse
      simp
    rw [hv]
    exact normalize_unsplit_fixed nfkcOk pr.scheme pr.netloc pr.path hs hnd
      hnu hp hipv hchk hsf hps (fun hand => hcond hand.1 hand.2)
  · intro nfkcOk b q₁ f₁ q₂ f₂ hbq hbf hq₁ hq₂
    rw [normalize_attach nfkcOk b q₁ f₁ hbq hbf hq₁,
      normalize_attach nfkcOk b q₂ f₂ hbq hbf hq₂]

/-- Claim C5 counterexample: normalization is not idempotent.  The link
`http://////foo` normalizes to `http:////foo` (the empty netloc is kept
but the path `////foo` is re-emitted after `//` + netloc), and normalizing
that result again gives the different link `http://foo`. -/
theorem C5_counterexample_not_idempotent :
    normalize_url nfkcTrue (chars "http://////foo") =
      some (chars "http:////foo") ∧
    normalize_url nfkcTrue (chars "http:////foo") =
      some (chars "http://foo") ∧
    chars "http:////foo" ≠ chars "http://foo" := by
  refine ⟨?_, ?_, ?_⟩ <;> decide

theorem C5_witness :
    normalize_url nfkcTrue (chars "http://h/a") =
      some (chars "http://h/a") ∧
    normalize_url nfkcTrue
        (attachQF (chars "http://h/a") (some (chars "x=1")) none) =
      normalize_url nfkcTrue
        (attachQF (chars "http://h/a") none (some (chars "frag"))) := by
  constructor
  · exact C5_normalize_url_properties.1 nfkcTrue (chars "http://h/a?x=1")
      (chars "http://h/a")
      ⟨chars "http", chars "h", chars "/a", [], chars "x=1", []⟩
      (by decide) (by decide) (by decide)
  · exact C5_normalize_url_properties.2 nfkcTrue (chars "http://h/a")
      (some (chars "x=1")) none none (some (chars "frag"))
      (by decide) (by decide)
      (fun qs hqs => by cases hqs; decide)
      (fun qs hqs => by cases hqs)

end GamePass
